import Mathlib

/-!
Verification of the a11y-devkit-deploy installation engine.

The JavaScript source is shallowly embedded: JS strings become `Str` (lists of
characters), JS objects become ordered association lists (`JObj`), and the
pure functions of `src/paths.js` (`mergeServers`, `removeServers`,
`parseSimpleToml`, `stringifySimpleToml`, `getIdePaths`,
`getHostApplicationPaths`, `getMcpRepoDir`) become Lean functions over these.
Effectful functions (`ensureRepo`, `installGitMcp`) are embedded with their
external effects (filesystem probes, spawned git commands, prompts, build
results) supplied as explicit oracle arguments, and the commands they would
run returned as data.  Object mutation questions are settled on a separate
explicit-heap embedding of the same two ConfigStore functions.
-/

set_option maxRecDepth 4000

namespace A11y

/-- JS strings, embedded as lists of characters so that splitting, trimming
and joining can be reasoned about by induction. -/
abbrev Str := List Char

/-- Shorthand turning a Lean string literal into the embedded form. -/
def sl (s : String) : Str := s.toList

/-- JS `String.prototype.split(sep)` for a one-character separator:
never collapses, returns `[""]` on the empty string. -/
def splitOnChar (sep : Char) : Str → List Str
  | [] => [[]]
  | c :: cs =>
    if c = sep then [] :: splitOnChar sep cs
    else
      match splitOnChar sep cs with
      | [] => [[c]]
      | h :: t => (c :: h) :: t

/-- JS `Array.prototype.join(sep)`. -/
def joinSep (sep : Str) : List Str → Str
  | [] => []
  | [l] => l
  | l :: l2 :: ls => l ++ sep ++ joinSep sep (l2 :: ls)

/-- JS `String.prototype.trim` (ASCII whitespace; the inputs handled by the
parser are ASCII). -/
def trimStr (s : Str) : Str :=
  ((s.dropWhile Char.isWhitespace).reverse.dropWhile Char.isWhitespace).reverse

/-- The JS regex character class `\w`: `[A-Za-z0-9_]`. -/
def wordChar (c : Char) : Bool := c.isAlphanum || c = '_'

/-- The values stored in a configuration document: strings, arrays of
strings (the only array shape these configs use), and nested objects. -/
inductive JValue where
  | str : Str → JValue
  | arr : List Str → JValue
  | obj : List (Str × JValue) → JValue

mutual

/-- Decidable equality for document values (hand-written because of the
nesting through lists). -/
def decEqJ : (a b : JValue) → Decidable (a = b)
  | .str a, .str b =>
    match decEq a b with
    | isTrue h => isTrue (by rw [h])
    | isFalse h => isFalse (fun hh => by cases hh; exact h rfl)
  | .arr a, .arr b =>
    match decEq a b with
    | isTrue h => isTrue (by rw [h])
    | isFalse h => isFalse (fun hh => by cases hh; exact h rfl)
  | .obj a, .obj b =>
    match decEqJObj a b with
    | isTrue h => isTrue (by rw [h])
    | isFalse h => isFalse (fun hh => by cases hh; exact h rfl)
  | .str _, .arr _ => isFalse (fun h => JValue.noConfusion h)
  | .str _, .obj _ => isFalse (fun h => JValue.noConfusion h)
  | .arr _, .str _ => isFalse (fun h => JValue.noConfusion h)
  | .arr _, .obj _ => isFalse (fun h => JValue.noConfusion h)
  | .obj _, .str _ => isFalse (fun h => JValue.noConfusion h)
  | .obj _, .arr _ => isFalse (fun h => JValue.noConfusion h)

/-- Decidable equality for association lists of document values. -/
def decEqJObj : (a b : List (Str × JValue)) → Decidable (a = b)
  | [], [] => isTrue rfl
  | [], _ :: _ => isFalse (fun h => List.noConfusion h)
  | _ :: _, [] => isFalse (fun h => List.noConfusion h)
  | (k1, v1) :: r1, (k2, v2) :: r2 =>
    match decEq k1 k2 with
    | isFalse h => isFalse (fun hh => by cases hh; exact h rfl)
    | isTrue h1 =>
      match decEqJ v1 v2 with
      | isFalse h => isFalse (fun hh => by cases hh; exact h rfl)
      | isTrue h2 =>
        match decEqJObj r1 r2 with
        | isFalse h => isFalse (fun hh => by cases hh; exact h rfl)
        | isTrue h3 => isTrue (by rw [h1, h2, h3])

end

instance : DecidableEq JValue := decEqJ

/-- A JS object: an insertion-ordered association list with (in any state
reachable from real JS) duplicate-free keys. -/
abbrev JObj := List (Str × JValue)

/-- Property lookup `o[k]` (first occurrence) on an association list. -/
def aget {α : Type} : List (Str × α) → Str → Option α
  | [], _ => none
  | (k2, v) :: rest, k => if k2 = k then some v else aget rest k

/-- Replace the value at an existing key, keeping its position. -/
def replaceKey {α : Type} : List (Str × α) → Str → α → List (Str × α)
  | [], _, _ => []
  | (k2, v2) :: rest, k, v =>
    if k2 = k then (k2, v) :: replaceKey rest k v
    else (k2, v2) :: replaceKey rest k v

/-- JS property assignment `o[k] = v`: overwrite in place if the key exists,
otherwise append at the end (insertion order). -/
def aset {α : Type} (o : List (Str × α)) (k : Str) (v : α) : List (Str × α) :=
  if (aget o k).isSome then replaceKey o k v else o ++ [(k, v)]

/-- JS `delete o[k]`: remove the key, keeping the order of the others. -/
def adel {α : Type} : List (Str × α) → Str → List (Str × α)
  | [], _ => []
  | (k2, v2) :: rest, k =>
    if k2 = k then adel rest k else (k2, v2) :: adel rest k

/-- JS truthiness of a document value: `""` is falsy, every object, array
and non-empty string is truthy. -/
def truthyJ : JValue → Bool
  | .str s => !s.isEmpty
  | .arr _ => true
  | .obj _ => true

/-- Truthiness of an optional property read (`undefined` is falsy). -/
def truthyOpt : Option JValue → Bool
  | none => false
  | some v => truthyJ v

/-- Spreading a JS array into an object literal (`{...arr}`) yields its
elements keyed by decimal indices; `typeof arr === "object"` also holds, so
the ConfigStore functions see arrays this way. -/
def arrToJObj (l : List Str) : JObj :=
  l.enum.map fun p => (Nat.toDigits 10 p.1, JValue.str p.2)

/-! ## ConfigStore: mergeServers / removeServers (src/paths.js:310-365) -/

/-- A server descriptor as passed to `mergeServers`: `args` and `type` may be
absent (`undefined`). -/
structure Server where
  name : Str
  command : Str
  args : Option (List Str)
  type : Option Str
deriving DecidableEq

/-- The `type` field is copied only when truthy (`if (server.type)`). -/
def typeEntry (s : Server) : JObj :=
  match s.type with
  | some t => if t = [] then [] else [(sl "type", JValue.str t)]
  | none => []

/-- The per-server config object `{command, args: server.args || [], type?}`
written by `mergeServers`. -/
def serverConfig (s : Server) : JValue :=
  .obj ([(sl "command", JValue.str s.command),
         (sl "args", JValue.arr (s.args.getD []))] ++ typeEntry s)

/-- `existing[serverKey] && typeof existing[serverKey] === "object"`:
the section as the code reads it (arrays count as objects). -/
def sectionAsObj : Option JValue → Option JObj
  | some (.obj m) => some m
  | some (.arr l) => some (arrToJObj l)
  | _ => none

/-- One iteration of the `for (const server of incoming)` loop: assign the
server's config object under its name. -/
def mergeStep (sec : JObj) (s : Server) : JObj :=
  aset sec s.name (serverConfig s)

/-- `mergeServers(existing, incoming, serverKey)` from src/paths.js:310-332.
The loop mutates the freshly spread copy of the section, so its net effect is
folding the assignments over the copied entries, then storing the section
under `serverKey`. -/
def mergeServers (existing : JObj) (incoming : List Server) (serverKey : Str) : JObj :=
  let existingServers := (sectionAsObj (aget existing serverKey)).getD []
  aset existing serverKey (.obj (incoming.foldl mergeStep existingServers))

/-- The `{updated, removed}` record returned by `removeServers`. -/
structure RemoveResult where
  updated : JObj
  removed : Nat
deriving DecidableEq

/-- One iteration of the `for (const name of removeNames)` loop:
`hasOwnProperty` check, then `delete` and count. -/
def removeLoop (p : JObj × Nat) (n : Str) : JObj × Nat :=
  if (aget p.1 n).isSome then (adel p.1 n, p.2 + 1) else p

/-- `removeServers(existing, removeNames, serverKey)` from
src/paths.js:334-365. -/
def removeServers (existing : JObj) (removeNames : List Str) (serverKey : Str) :
    RemoveResult :=
  match sectionAsObj (aget existing serverKey) with
  | none => ⟨existing, 0⟩
  | some existingServers =>
    let res := removeNames.foldl removeLoop (existingServers, 0)
    if res.2 = 0 then ⟨existing, 0⟩
    else if res.1 = [] then ⟨adel existing serverKey, res.2⟩
    else ⟨aset existing serverKey (.obj res.1), res.2⟩

/-- The document invariant of spec §3: the server-section key, when present,
maps to a non-empty mapping. -/
def sectionOk (d : JObj) (k : Str) : Bool :=
  match aget d k with
  | none => true
  | some (.obj m) => !m.isEmpty
  | some _ => false

/-! ## Association-list lemmas -/

theorem aget_replaceKey_of_isSome {α : Type} (o : List (Str × α)) (k : Str) (v : α)
    (h : (aget o k).isSome) : aget (replaceKey o k v) k = some v := by
  induction o with
  | nil => simp [aget] at h
  | cons p rest ih =>
    obtain ⟨k2, v2⟩ := p
    by_cases hk : k2 = k
    · subst hk; simp [replaceKey, aget]
    · simp [aget, hk] at h
      simp [replaceKey, aget, hk, ih h]

theorem aget_replaceKey_ne {α : Type} (o : List (Str × α)) (k k2 : Str) (v : α)
    (h : k2 ≠ k) : aget (replaceKey o k v) k2 = aget o k2 := by
  have h2 : ¬(k = k2) := fun hh => h hh.symm
  induction o with
  | nil => rfl
  | cons p rest ih =>
    obtain ⟨k3, v3⟩ := p
    by_cases hk : k3 = k
    · subst hk
      simp [replaceKey, aget, h2, ih]
    · by_cases hk2 : k3 = k2 <;> simp [replaceKey, aget, hk, hk2, h, ih]

theorem aget_append_of_none {α : Type} (a b : List (Str × α)) (k : Str)
    (h : aget a k = none) : aget (a ++ b) k = aget b k := by
  induction a with
  | nil => rfl
  | cons p rest ih =>
    obtain ⟨k2, v2⟩ := p
    by_cases hk : k2 = k
    · subst hk; simp [aget] at h
    · simp [aget, hk] at h ⊢; exact ih h

theorem aget_append_single_ne {α : Type} (o : List (Str × α)) (k k2 : Str) (v : α)
    (h : k2 ≠ k) : aget (o ++ [(k, v)]) k2 = aget o k2 := by
  have h2 : ¬(k = k2) := fun hh => h hh.symm
  induction o with
  | nil => simp [aget, h2]
  | cons p rest ih =>
    obtain ⟨k3, v3⟩ := p
    by_cases hk2 : k3 = k2 <;> simp [aget, hk2, ih]

theorem aget_none_of_not_isSome {α : Type} {o : List (Str × α)} {k : Str}
    (h : ¬(aget o k).isSome) : aget o k = none := by
  rcases hh : aget o k with _ | w
  · rfl
  · rw [hh] at h; simp at h

theorem aset_of_isSome {α : Type} (o : List (Str × α)) (k : Str) (v : α)
    (h : (aget o k).isSome) : aset o k v = replaceKey o k v := by
  simp [aset, h]

theorem aset_of_aget_none {α : Type} (o : List (Str × α)) (k : Str) (v : α)
    (h : aget o k = none) : aset o k v = o ++ [(k, v)] := by
  simp [aset, h]

theorem aget_aset_self {α : Type} (o : List (Str × α)) (k : Str) (v : α) :
    aget (aset o k v) k = some v := by
  by_cases h : (aget o k).isSome
  · rw [aset_of_isSome o k v h]
    exact aget_replaceKey_of_isSome o k v h
  · have hn := aget_none_of_not_isSome h
    rw [aset_of_aget_none o k v hn, aget_append_of_none _ _ _ hn]
    simp [aget]

theorem aget_aset_ne {α : Type} (o : List (Str × α)) (k k2 : Str) (v : α)
    (h : k2 ≠ k) : aget (aset o k v) k2 = aget o k2 := by
  by_cases hs : (aget o k).isSome
  · rw [aset_of_isSome o k v hs]
    exact aget_replaceKey_ne o k k2 v h
  · rw [aset_of_aget_none o k v (aget_none_of_not_isSome hs)]
    exact aget_append_single_ne o k k2 v h

theorem replaceKey_of_aget_none {α : Type} (o : List (Str × α)) (k : Str) (v : α)
    (h : aget o k = none) : replaceKey o k v = o := by
  induction o with
  | nil => rfl
  | cons p rest ih =>
    obtain ⟨k2, v2⟩ := p
    by_cases hk : k2 = k
    · subst hk; simp [aget] at h
    · simp [aget, hk] at h
      simp [replaceKey, hk, ih h]

theorem aget_append_of_some {α : Type} (a b : List (Str × α)) (k : Str) (v : α)
    (h : aget a k = some v) : aget (a ++ b) k = some v := by
  induction a with
  | nil => simp [aget] at h
  | cons p rest ih =>
    obtain ⟨k2, v2⟩ := p
    by_cases hk : k2 = k
    · subst hk; simp [aget] at h ⊢; exact h
    · simp [aget, hk] at h ⊢; exact ih h

theorem adel_of_aget_none {α : Type} (o : List (Str × α)) (k : Str)
    (h : aget o k = none) : adel o k = o := by
  induction o with
  | nil => rfl
  | cons p rest ih =>
    obtain ⟨k2, v2⟩ := p
    by_cases hk : k2 = k
    · subst hk; simp [aget] at h
    · simp [aget, hk] at h
      simp [adel, hk, ih h]

theorem adel_append {α : Type} (a b : List (Str × α)) (k : Str) :
    adel (a ++ b) k = adel a k ++ adel b k := by
  induction a with
  | nil => rfl
  | cons p rest ih =>
    obtain ⟨k2, v2⟩ := p
    by_cases hk : k2 = k <;> simp [adel, hk, ih]

theorem aget_adel_self {α : Type} (o : List (Str × α)) (k : Str) :
    aget (adel o k) k = none := by
  induction o with
  | nil => rfl
  | cons p rest ih =>
    obtain ⟨k2, v2⟩ := p
    by_cases hk : k2 = k <;> simp [adel, aget, hk, ih]

theorem mem_adel {α : Type} {o : List (Str × α)} {k : Str} {x : Str × α}
    (h : x ∈ adel o k) : x ∈ o ∧ x.1 ≠ k := by
  induction o with
  | nil => simp [adel] at h
  | cons p rest ih =>
    obtain ⟨k2, v2⟩ := p
    by_cases hk : k2 = k
    · subst hk
      simp [adel] at h
      have := ih h
      exact ⟨List.mem_cons_of_mem _ this.1, this.2⟩
    · simp [adel, hk] at h
      rcases h with h | h
      · subst h; exact ⟨List.mem_cons_self _ _, hk⟩
      · have := ih h
        exact ⟨List.mem_cons_of_mem _ this.1, this.2⟩

theorem replaceKey_append_of_none {α : Type} (a b : List (Str × α)) (k : Str) (v : α)
    (h : aget a k = none) : replaceKey (a ++ b) k v = a ++ replaceKey b k v := by
  induction a with
  | nil => rfl
  | cons p rest ih =>
    obtain ⟨k2, v2⟩ := p
    by_cases hk : k2 = k
    · subst hk; simp [aget] at h
    · simp [aget, hk] at h
      simp [replaceKey, hk, ih h]

theorem map_fst_replaceKey {α : Type} (o : List (Str × α)) (k : Str) (v : α) :
    (replaceKey o k v).map Prod.fst = o.map Prod.fst := by
  induction o with
  | nil => rfl
  | cons p rest ih =>
    obtain ⟨k2, v2⟩ := p
    by_cases hk : k2 = k <;> simp [replaceKey, hk, ih]

theorem aset_ne_nil {α : Type} (o : List (Str × α)) (k : Str) (v : α) :
    aset o k v ≠ [] := by
  unfold aset
  by_cases h : (aget o k).isSome
  · simp only [h, if_true]
    cases o with
    | nil => simp [aget] at h
    | cons p rest =>
      obtain ⟨k2, v2⟩ := p
      by_cases hk : k2 = k <;> simp [replaceKey, hk]
  · simp [h]

theorem replaceKey_replaceKey {α : Type} (o : List (Str × α)) (k : Str) (v1 v2 : α) :
    replaceKey (replaceKey o k v1) k v2 = replaceKey o k v2 := by
  induction o with
  | nil => rfl
  | cons p rest ih =>
    obtain ⟨k2, v3⟩ := p
    by_cases hk : k2 = k <;> simp [replaceKey, hk, ih]

theorem aset_aset_same {α : Type} (o : List (Str × α)) (k : Str) (v1 v2 : α) :
    aset (aset o k v1) k v2 = aset o k v2 := by
  by_cases h : (aget o k).isSome
  · have h3 : (aget (aset o k v1) k).isSome := by simp [aget_aset_self]
    rw [aset_of_isSome _ _ _ h3, aset_of_isSome _ _ _ h, aset_of_isSome _ _ _ h,
        replaceKey_replaceKey]
  · have hn := aget_none_of_not_isSome h
    have h1 : aget (o ++ [(k, v1)]) k = some v1 := by
      rw [aget_append_of_none _ _ _ hn]; simp [aget]
    rw [aset_of_aget_none _ _ _ hn,
        aset_of_isSome _ _ _ (by simp [h1]),
        replaceKey_append_of_none _ _ _ _ hn, aset_of_aget_none _ _ _ hn]
    simp [replaceKey]

theorem aget_eq_none_of_not_mem {α : Type} (o : List (Str × α)) (k : Str)
    (h : k ∉ o.map Prod.fst) : aget o k = none := by
  induction o with
  | nil => rfl
  | cons p rest ih =>
    obtain ⟨k2, v2⟩ := p
    simp only [List.map_cons, List.mem_cons] at h
    push_neg at h
    have hk : ¬(k2 = k) := fun hh => h.1 hh.symm
    simp [aget, hk, ih h.2]

theorem replaceKey_eq_self {α : Type} (o : List (Str × α)) (k : Str) (v : α)
    (hnd : (o.map Prod.fst).Nodup) (h : aget o k = some v) : replaceKey o k v = o := by
  induction o with
  | nil => simp [aget] at h
  | cons p rest ih =>
    obtain ⟨k2, v2⟩ := p
    simp only [List.map_cons, List.nodup_cons] at hnd
    by_cases hk : k2 = k
    · have hv : v2 = v := by simpa [aget, hk] using h
      have hrest : aget rest k = none := by
        apply aget_eq_none_of_not_mem
        rw [← hk]
        exact hnd.1
      simp [replaceKey, hk, hv, replaceKey_of_aget_none _ _ _ hrest]
    · simp only [aget, hk, if_false] at h
      simp [replaceKey, hk, ih hnd.2 h]

theorem aset_eq_self_of_nodup {α : Type} (o : List (Str × α)) (k : Str) (v : α)
    (hnd : (o.map Prod.fst).Nodup) (h : aget o k = some v) : aset o k v = o := by
  rw [aset_of_isSome _ _ _ (by simp [h])]
  exact replaceKey_eq_self o k v hnd h

/-! ## Structure of the merge loop and the remove loop -/

/-- Deleting every name of a list in turn (the remove loop's effect on the
section copy). -/
def adelAll (o : JObj) (ns : List Str) : JObj := ns.foldl adel o

theorem removeLoop_fst (ns : List Str) (o : JObj) (c : Nat) :
    ((ns.foldl removeLoop (o, c)).1 : JObj) = adelAll o ns := by
  induction ns generalizing o c with
  | nil => rfl
  | cons n rest ih =>
    rw [List.foldl_cons]
    by_cases h : (aget o n).isSome
    · rw [show removeLoop (o, c) n = (adel o n, c + 1) from by simp [removeLoop, h]]
      exact ih _ _
    · rw [show removeLoop (o, c) n = (o, c) from by simp [removeLoop, h]]
      have hd : adel o n = o := adel_of_aget_none o n (aget_none_of_not_isSome h)
      show (rest.foldl removeLoop (o, c)).1 = adelAll (adel o n) rest
      rw [hd]
      exact ih _ _

theorem removeLoop_count_mono (ns : List Str) (o : JObj) (c : Nat) :
    c ≤ (ns.foldl removeLoop (o, c)).2 := by
  induction ns generalizing o c with
  | nil => exact Nat.le_refl c
  | cons n rest ih =>
    rw [List.foldl_cons]
    by_cases h : (aget o n).isSome
    · rw [show removeLoop (o, c) n = (adel o n, c + 1) from by simp [removeLoop, h]]
      exact Nat.le_trans (Nat.le_succ c) (ih _ _)
    · rw [show removeLoop (o, c) n = (o, c) from by simp [removeLoop, h]]
      exact ih _ _

theorem mem_adelAll {o : JObj} {ns : List Str} {x : Str × JValue}
    (h : x ∈ adelAll o ns) : x ∈ o ∧ x.1 ∉ ns := by
  induction ns generalizing o with
  | nil => simpa [adelAll] using h
  | cons n rest ih =>
    have h2 : x ∈ adelAll (adel o n) rest := h
    obtain ⟨hmem, hrest⟩ := ih h2
    obtain ⟨ho, hne⟩ := mem_adel hmem
    exact ⟨ho, by simp [hne, hrest]⟩

theorem adelAll_eq_nil {o : JObj} {ns : List Str}
    (h : ∀ p ∈ o, p.1 ∈ ns) : adelAll o ns = [] := by
  rcases he : adelAll o ns with _ | ⟨x, rest⟩
  · rfl
  · exfalso
    have hx : x ∈ adelAll o ns := by rw [he]; exact List.mem_cons_self _ _
    obtain ⟨ho, hns⟩ := mem_adelAll hx
    exact hns (h x ho)

theorem adelAll_append_left (m extra : JObj) (ns : List Str)
    (h : ∀ n ∈ ns, aget m n = none) :
    adelAll (m ++ extra) ns = m ++ adelAll extra ns := by
  induction ns generalizing extra with
  | nil => rfl
  | cons n rest ih =>
    have hmn : aget m n = none := h n (List.mem_cons_self _ _)
    show adelAll (adel (m ++ extra) n) rest = m ++ adelAll (adel extra n) rest
    rw [adel_append, adel_of_aget_none m n hmn]
    exact ih (adel extra n) (fun n2 hn2 => h n2 (List.mem_cons_of_mem _ hn2))

theorem aget_isSome_aset {α : Type} (o : List (Str × α)) (k k2 : Str) (v : α)
    (h : (aget o k).isSome) : (aget (aset o k2 v) k).isSome := by
  by_cases hk : k = k2
  · subst hk; simp [aget_aset_self]
  · rw [aget_aset_ne o k2 k v hk]; exact h

theorem mergeStep_foldl_isSome (S : List Server) (sec : JObj) (k : Str)
    (h : (aget sec k).isSome) : (aget (S.foldl mergeStep sec) k).isSome := by
  induction S generalizing sec with
  | nil => exact h
  | cons s rest ih =>
    exact ih (mergeStep sec s) (aget_isSome_aset _ _ _ _ h)

theorem mergeStep_foldl_mem_isSome (S : List Server) (sec : JObj) (s : Server)
    (hs : s ∈ S) : (aget (S.foldl mergeStep sec) s.name).isSome := by
  induction S generalizing sec with
  | nil => simp at hs
  | cons s2 rest ih =>
    rcases List.mem_cons.mp hs with h | h
    · subst h
      exact mergeStep_foldl_isSome rest _ _ (by simp [mergeStep, aget_aset_self])
    · exact ih _ h

theorem mergeStep_foldl_ne_nil (S : List Server) (sec : JObj)
    (h : S ≠ [] ∨ sec ≠ []) : S.foldl mergeStep sec ≠ [] := by
  induction S generalizing sec with
  | nil =>
    rcases h with h | h
    · exact absurd rfl h
    · exact h
  | cons s rest ih =>
    exact ih (mergeStep sec s) (Or.inr (aset_ne_nil _ _ _))

theorem mergeStep_foldl_structure (S : List Server) (m extra : JObj) (A : List Str)
    (hm : ∀ s ∈ S, aget m s.name = none)
    (hA : ∀ s ∈ S, s.name ∈ A)
    (hextra : ∀ p ∈ extra, p.1 ∈ A) :
    ∃ extra2, S.foldl mergeStep (m ++ extra) = m ++ extra2 ∧
      ∀ p ∈ extra2, p.1 ∈ A := by
  induction S generalizing extra with
  | nil => exact ⟨extra, rfl, hextra⟩
  | cons s rest ih =>
    have hmn : aget m s.name = none := hm s (List.mem_cons_self _ _)
    have hstep : ∃ extra1, mergeStep (m ++ extra) s = m ++ extra1 ∧
        ∀ p ∈ extra1, p.1 ∈ A := by
      unfold mergeStep
      by_cases hx : (aget extra s.name).isSome
      · have : (aget (m ++ extra) s.name).isSome := by
          rw [aget_append_of_none m extra _ hmn]; exact hx
        rw [aset_of_isSome _ _ _ this, replaceKey_append_of_none _ _ _ _ hmn]
        refine ⟨replaceKey extra s.name (serverConfig s), rfl, ?_⟩
        intro p hp
        have : p.1 ∈ (replaceKey extra s.name (serverConfig s)).map Prod.fst :=
          List.mem_map_of_mem Prod.fst hp
        rw [map_fst_replaceKey] at this
        obtain ⟨q, hq, hq2⟩ := List.mem_map.mp this
        rw [← hq2]
        exact hextra q hq
      · have hnone : aget (m ++ extra) s.name = none := by
          rw [aget_append_of_none m extra _ hmn]
          exact aget_none_of_not_isSome hx
        rw [aset_of_aget_none _ _ _ hnone, List.append_assoc]
        refine ⟨extra ++ [(s.name, serverConfig s)], rfl, ?_⟩
        intro p hp
        rcases List.mem_append.mp hp with hp | hp
        · exact hextra p hp
        · rw [List.mem_singleton] at hp
          rw [hp]
          exact hA s (List.mem_cons_self _ _)
    obtain ⟨extra1, heq, hmem1⟩ := hstep
    rw [List.foldl_cons, heq]
    exact ih extra1 (fun s2 h2 => hm s2 (List.mem_cons_of_mem _ h2))
      (fun s2 h2 => hA s2 (List.mem_cons_of_mem _ h2)) hmem1

theorem mergeServers_eq (D : JObj) (S : List Server) (k : Str) :
    mergeServers D S k =
      aset D k (.obj (S.foldl mergeStep ((sectionAsObj (aget D k)).getD []))) := rfl

theorem removeServers_of_none (existing : JObj) (names : List Str) (k : Str)
    (h : sectionAsObj (aget existing k) = none) :
    removeServers existing names k = ⟨existing, 0⟩ := by
  unfold removeServers
  rw [h]

theorem removeServers_of_section (existing : JObj) (names : List Str) (k : Str)
    (es : JObj) (h : sectionAsObj (aget existing k) = some es) :
    removeServers existing names k =
      (if (names.foldl removeLoop (es, 0)).2 = 0 then ⟨existing, 0⟩
       else if (names.foldl removeLoop (es, 0)).1 = [] then
         ⟨adel existing k, (names.foldl removeLoop (es, 0)).2⟩
       else ⟨aset existing k (.obj (names.foldl removeLoop (es, 0)).1),
             (names.foldl removeLoop (es, 0)).2⟩ : RemoveResult) := by
  unfold removeServers
  rw [h]

theorem foldl_removeLoop_count_pos (n1 : Str) (rest : List Str) (sec : JObj)
    (h : (aget sec n1).isSome) :
    ((n1 :: rest).foldl removeLoop (sec, 0)).2 ≠ 0 := by
  rw [List.foldl_cons,
      show removeLoop (sec, 0) n1 = (adel sec n1, 1) from by simp [removeLoop, h]]
  have := removeLoop_count_mono rest (adel sec n1) 1
  omega

/-- The claim of C1 fails as stated: with an empty descriptor list and an
absent section key, `mergeServers` writes an empty stub section and
`removeServers` (removing nothing) keeps it, so the round trip does not
return the original document even up to key order. -/
theorem stub_roundtrip_counterexample :
    aget ([] : JObj) (sl "servers") = none ∧
    aget ((removeServers (mergeServers [] [] (sl "servers")) [] (sl "servers")).updated)
      (sl "servers") = some (JValue.obj []) := by
  constructor
  · rfl
  · rfl

/-- C1 (amended): the merge/remove round trip restores the document exactly
provided the incoming names are fresh for the section and the degenerate
empty-stub situations are excluded: either the section key is absent and the
incoming list non-empty, or the key maps to a mapping that is non-empty
whenever the incoming list is. -/
theorem merge_remove_roundtrip (D : JObj) (S : List Server) (k : Str)
    (hnd : (D.map Prod.fst).Nodup)
    (hcase : (aget D k = none ∧ S ≠ []) ∨
      (∃ m, aget D k = some (.obj m) ∧ (∀ s ∈ S, aget m s.name = none) ∧
        (S ≠ [] → m ≠ []))) :
    (removeServers (mergeServers D S k) (S.map Server.name) k).updated = D := by
  rcases hcase with ⟨hDk, hS⟩ | ⟨m, hDk, hfresh, hne⟩
  · -- section absent, S non-empty: merge appends the section, remove drops it
    obtain ⟨s1, S2, rfl⟩ : ∃ s1 S2, S = s1 :: S2 := by
      cases S with
      | nil => exact absurd rfl hS
      | cons a b => exact ⟨a, b, rfl⟩
    rw [mergeServers_eq, hDk]
    set sec : JObj := (s1 :: S2).foldl mergeStep ((sectionAsObj none).getD [])
      with hsec
    have hsec2 : sec = (s1 :: S2).foldl mergeStep [] := hsec
    have hmerged : aset D k (.obj sec) = D ++ [(k, .obj sec)] :=
      aset_of_aget_none D k _ hDk
    have hget : aget (aset D k (.obj sec)) k = some (.obj sec) := aget_aset_self D k _
    have hsec3 : sectionAsObj (aget (aset D k (.obj sec)) k) = some sec := by
      rw [hget]
      rfl
    rw [removeServers_of_section _ _ _ _ hsec3]
    have hstruct := mergeStep_foldl_structure (s1 :: S2) [] []
      ((s1 :: S2).map Server.name)
      (by intro s hs; rfl)
      (by intro s hs; exact List.mem_map_of_mem Server.name hs)
      (by intro p hp; simp at hp)
    obtain ⟨extra2, heq, hmem⟩ := hstruct
    simp only [List.nil_append] at heq
    have hres1 : (((s1 :: S2).map Server.name).foldl removeLoop (sec, 0)).1 = [] := by
      rw [removeLoop_fst, hsec2, heq]
      exact adelAll_eq_nil hmem
    have hres2 : (((s1 :: S2).map Server.name).foldl removeLoop (sec, 0)).2 ≠ 0 := by
      rw [List.map_cons]
      apply foldl_removeLoop_count_pos
      rw [hsec2]
      exact mergeStep_foldl_mem_isSome _ _ _ (List.mem_cons_self _ _)
    rw [if_neg hres2, if_pos hres1]
    show adel (aset D k (.obj sec)) k = D
    rw [hmerged, adel_append, adel_of_aget_none D k hDk]
    simp [adel]
  · -- section present as a mapping with fresh names
    rw [mergeServers_eq, hDk]
    set sec : JObj := S.foldl mergeStep ((sectionAsObj (some (.obj m))).getD [])
      with hsec
    have hsec2 : sec = S.foldl mergeStep m := hsec
    have hget : aget (aset D k (.obj sec)) k = some (.obj sec) := aget_aset_self D k _
    have hsec3 : sectionAsObj (aget (aset D k (.obj sec)) k) = some sec := by
      rw [hget]
      rfl
    rw [removeServers_of_section _ _ _ _ hsec3]
    have hstruct := mergeStep_foldl_structure S m [] (S.map Server.name)
      hfresh
      (by intro s hs; exact List.mem_map_of_mem Server.name hs)
      (by intro p hp; simp at hp)
    obtain ⟨extra2, heq, hmem⟩ := hstruct
    simp only [List.append_nil] at heq
    have hfreshn : ∀ n ∈ S.map Server.name, aget m n = none := by
      intro n hn
      obtain ⟨s, hs, rfl⟩ := List.mem_map.mp hn
      exact hfresh s hs
    have hres1 : ((S.map Server.name).foldl removeLoop (sec, 0)).1 = m := by
      rw [removeLoop_fst, hsec2, heq, adelAll_append_left m extra2 _ hfreshn,
          adelAll_eq_nil hmem]
      simp
    cases S with
    | nil =>
      have : ((([] : List Server).map Server.name).foldl removeLoop (sec, 0)).2 = 0 := rfl
      rw [if_pos this]
      show aset D k (.obj sec) = D
      rw [hsec2]
      exact aset_eq_self_of_nodup D k _ hnd hDk
    | cons s1 S2 =>
      have hm : m ≠ [] := hne (by simp)
      have hres2 : (((s1 :: S2).map Server.name).foldl removeLoop (sec, 0)).2 ≠ 0 := by
        rw [List.map_cons]
        apply foldl_removeLoop_count_pos
        rw [hsec2]
        exact mergeStep_foldl_mem_isSome _ _ _ (List.mem_cons_self _ _)
      rw [if_neg hres2, hres1, if_neg hm]
      show aset (aset D k (.obj sec)) k (.obj m) = D
      rw [aset_aset_same]
      exact aset_eq_self_of_nodup D k _ hnd hDk

/-- Concrete instance of the amended C1 round trip. -/
theorem merge_remove_roundtrip_witness :
    (removeServers
        (mergeServers [(sl "other", JValue.str (sl "x"))]
          [⟨sl "wcag", sl "node", some [sl "index.js"], none⟩] (sl "servers"))
        [sl "wcag"] (sl "servers")).updated
      = [(sl "other", JValue.str (sl "x"))] :=
  merge_remove_roundtrip [(sl "other", JValue.str (sl "x"))]
    [⟨sl "wcag", sl "node", some [sl "index.js"], none⟩] (sl "servers")
    (by decide)
    (Or.inl ⟨by decide, by decide⟩)

/-- The claim of C3 fails as stated for the empty incoming list:
`mergeServers` of the empty document (which satisfies the section invariant)
with no incoming servers writes an empty stub section, violating it. -/
theorem section_invariant_counterexample :
    sectionOk ([] : JObj) (sl "servers") = true ∧
    sectionOk (mergeServers [] [] (sl "servers")) (sl "servers") = false := by
  constructor
  · rfl
  · rfl

/-- C3 (amended): both ConfigStore operations preserve the invariant that
the section key, when present, maps to a non-empty mapping — for
`mergeServers` provided the incoming list is non-empty or the section key is
already present; `removeServers` preserves it unconditionally, deleting the
key when removal empties the section. -/
theorem section_invariant_preserved (D : JObj) (S : List Server)
    (names : List Str) (k : Str)
    (hok : sectionOk D k = true)
    (hS : S ≠ [] ∨ (aget D k).isSome) :
    sectionOk (mergeServers D S k) k = true ∧
    sectionOk (removeServers D names k).updated k = true := by
  constructor
  · rw [mergeServers_eq]
    have hne : S.foldl mergeStep ((sectionAsObj (aget D k)).getD []) ≠ [] := by
      apply mergeStep_foldl_ne_nil
      rcases hS with hS | hS
      · exact Or.inl hS
      · right
        rcases hget : aget D k with _ | v
        · rw [hget] at hS; simp at hS
        · rcases v with s | l | m
          · simp [sectionOk, hget] at hok
          · simp [sectionOk, hget] at hok
          · simp only [sectionOk, hget, Bool.not_eq_true'] at hok
            simp only [sectionAsObj, Option.getD_some]
            intro hm
            rw [hm] at hok
            simp at hok
    unfold sectionOk
    rw [aget_aset_self]
    simpa using hne
  · rcases hsec : sectionAsObj (aget D k) with _ | es
    · rw [removeServers_of_none D names k hsec]
      exact hok
    · rw [removeServers_of_section D names k es hsec]
      by_cases h0 : (names.foldl removeLoop (es, 0)).2 = 0
      · rw [if_pos h0]
        exact hok
      · rw [if_neg h0]
        by_cases hnil : (names.foldl removeLoop (es, 0)).1 = []
        · rw [if_pos hnil]
          show sectionOk (adel D k) k = true
          unfold sectionOk
          rw [aget_adel_self]
        · rw [if_neg hnil]
          show sectionOk (aset D k (.obj (names.foldl removeLoop (es, 0)).1)) k = true
          unfold sectionOk
          rw [aget_aset_self]
          simpa using hnil

/-- Concrete instance of the amended C3 invariant preservation. -/
theorem section_invariant_preserved_witness :
    sectionOk (mergeServers [] [⟨sl "wcag", sl "node", none, none⟩] (sl "servers"))
      (sl "servers") = true ∧
    sectionOk (removeServers [] [sl "wcag"] (sl "servers")).updated
      (sl "servers") = true :=
  section_invariant_preserved [] [⟨sl "wcag", sl "node", none, none⟩]
    [sl "wcag"] (sl "servers") (by decide) (Or.inl (by decide))

/-- C4: `mergeServers` maps every top-level key other than the target
section key to exactly the value the input document maps it to. -/
theorem mergeServers_frame (D : JObj) (S : List Server) (k k2 : Str)
    (h : k2 ≠ k) : aget (mergeServers D S k) k2 = aget D k2 := by
  rw [mergeServers_eq]
  exact aget_aset_ne D k k2 _ h

/-- Concrete instance of the C4 frame property. -/
theorem mergeServers_frame_witness :
    aget (mergeServers [(sl "other", JValue.str (sl "x"))]
      [⟨sl "wcag", sl "node", none, none⟩] (sl "servers")) (sl "other")
      = aget [(sl "other", JValue.str (sl "x"))] (sl "other") :=
  mergeServers_frame [(sl "other", JValue.str (sl "x"))]
    [⟨sl "wcag", sl "node", none, none⟩] (sl "servers") (sl "other") (by decide)

theorem foldl_removeLoop_noop (names : List Str) (es : JObj)
    (h : ∀ n ∈ names, aget es n = none) :
    names.foldl removeLoop (es, 0) = (es, 0) := by
  induction names with
  | nil => rfl
  | cons n rest ih =>
    rw [List.foldl_cons,
        show removeLoop (es, 0) n = (es, 0) from by
          simp [removeLoop, h n (List.mem_cons_self _ _)]]
    exact ih (fun n2 hn2 => h n2 (List.mem_cons_of_mem _ hn2))

/-- C7: when the section is absent (or not an object as the code checks it),
or none of the names to remove occur in it, `removeServers` returns the
original document unchanged with `removed = 0`. -/
theorem removeServers_noop (D : JObj) (names : List Str) (k : Str)
    (h : ∀ es, sectionAsObj (aget D k) = some es → ∀ n ∈ names, aget es n = none) :
    removeServers D names k = ⟨D, 0⟩ := by
  rcases hsec : sectionAsObj (aget D k) with _ | es
  · exact removeServers_of_none D names k hsec
  · rw [removeServers_of_section D names k es hsec]
    rw [foldl_removeLoop_noop names es (h es hsec)]
    simp

/-- Concrete instance of the C7 no-op property. -/
theorem removeServers_noop_witness :
    removeServers [(sl "servers", JValue.obj [(sl "aria", JValue.str (sl "y"))])]
      [sl "wcag"] (sl "servers")
      = ⟨[(sl "servers", JValue.obj [(sl "aria", JValue.str (sl "y"))])], 0⟩ :=
  removeServers_noop _ _ _ (by decide)

/-! ## HostPathResolver (src/paths.js, both variants)

`path.join` is embedded as separator concatenation; the path components fed
to it by this code are plain names, so no normalisation is involved. -/

/-- Process environment: home directory plus the two variables the resolver
reads.  `||` fallbacks treat an empty-string variable as unset. -/
structure Env where
  home : Str
  appData : Option Str
  xdgConfigHome : Option Str

/-- `value || fallback` for an optional environment/config string. -/
def strOr (v : Option Str) (fallback : Str) : Str :=
  match v with
  | some s => if s = [] then fallback else s
  | none => fallback

/-- `os.platform()` result together with the three derived flags. -/
structure PlatformInfo where
  platform : Str
  isWindows : Bool
  isMac : Bool
  isLinux : Bool

/-- `path.join(a, b)`. -/
def pjoin (a b : Str) : Str := a ++ '/' :: b

/-- `getAppSupportDir(platformInfo)` from src/paths.js. -/
def getAppSupportDir (env : Env) (p : PlatformInfo) : Str :=
  if p.isWindows then
    strOr env.appData (pjoin (pjoin env.home (sl "AppData")) (sl "Roaming"))
  else if p.isMac then
    pjoin (pjoin env.home (sl "Library")) (sl "Application Support")
  else
    strOr env.xdgConfigHome (pjoin env.home (sl ".config"))

/-- Per-platform global-path overrides declared by a host descriptor. -/
structure GlobalOverride where
  skillsFolder : Option Str
  mcpConfigFile : Option Str

/-- `globalPaths`: an object with optional `Win` and `macOS` entries. -/
structure GlobalPaths where
  win : Option GlobalOverride
  macOS : Option GlobalOverride

/-- A host/IDE descriptor as consumed by both resolvers (the home-directory
variant simply ignores `globalPaths`). -/
structure IdeConfig where
  id : Str
  displayName : Str
  skillsFolder : Option Str
  mcpConfigFile : Option Str
  mcpServerKey : Option Str
  globalPaths : Option GlobalPaths

/-- The record built per host by both resolvers. -/
structure IdePaths where
  name : Str
  mcpConfig : Str
  localMcpConfig : Str
  mcpServerKey : Option Str
  skillsDir : Str
  localSkillsDir : Str
deriving DecidableEq

/-- Default `.{id}/skills`. -/
def defaultSkillsFolder (id : Str) : Str := '.' :: id ++ sl "/skills"

/-- Default `.{id}/mcp.json`. -/
def defaultMcpConfigFile (id : Str) : Str := '.' :: id ++ sl "/mcp.json"

/-- `getIdePaths(projectRoot, platformInfo, ideConfigs)`: the variant that
applies platform-specific override tables against the application-support
base on Windows/Mac. -/
def getIdePaths (env : Env) (projectRoot : Str) (pinfo : PlatformInfo)
    (ideConfigs : List IdeConfig) : List (Str × IdePaths) :=
  let home := env.home
  let appSupport := getAppSupportDir env pinfo
  ideConfigs.map fun ide =>
    let skillsFolder := strOr ide.skillsFolder (defaultSkillsFolder ide.id)
    let mcpConfigFile := strOr ide.mcpConfigFile (defaultMcpConfigFile ide.id)
    let overrides :=
      match ide.globalPaths with
      | none => none
      | some gp =>
        if pinfo.isWindows then gp.win
        else if pinfo.isMac then gp.macOS
        else none
    let globalSkillsFolder :=
      match overrides with
      | some o => strOr o.skillsFolder skillsFolder
      | none => skillsFolder
    let globalMcpConfigFile :=
      match overrides with
      | some o => strOr o.mcpConfigFile mcpConfigFile
      | none => mcpConfigFile
    let useAppSupport := ide.globalPaths.isSome && (pinfo.isWindows || pinfo.isMac)
    let globalBase := if useAppSupport then appSupport else home
    (ide.id,
     { name := ide.displayName
       mcpConfig := pjoin globalBase globalMcpConfigFile
       localMcpConfig := pjoin projectRoot mcpConfigFile
       mcpServerKey := ide.mcpServerKey
       skillsDir := pjoin globalBase globalSkillsFolder
       localSkillsDir := pjoin projectRoot skillsFolder })

/-- `getHostApplicationPaths(projectRoot, platformInfo, hostConfigs)`: the
variant that always joins the home directory with the default names. -/
def getHostApplicationPaths (env : Env) (projectRoot : Str) (_pinfo : PlatformInfo)
    (hostConfigs : List IdeConfig) : List (Str × IdePaths) :=
  let home := env.home
  hostConfigs.map fun host =>
    let skillsFolder := strOr host.skillsFolder (defaultSkillsFolder host.id)
    let mcpConfigFile := strOr host.mcpConfigFile (defaultMcpConfigFile host.id)
    (host.id,
     { name := host.displayName
       mcpConfig := pjoin home mcpConfigFile
       localMcpConfig := pjoin projectRoot mcpConfigFile
       mcpServerKey := host.mcpServerKey
       skillsDir := pjoin home skillsFolder
       localSkillsDir := pjoin projectRoot skillsFolder })

/-- `getMcpRepoDir(scope, projectRoot, platformInfo, mcpName)`. -/
def getMcpRepoDir (env : Env) (scope : Str) (projectRoot : Str)
    (pinfo : PlatformInfo) (mcpName : Str) : Str :=
  if scope = sl "local" then
    pjoin (pjoin (pjoin projectRoot (sl ".a11y-devkit")) (sl "mcp-repos")) mcpName
  else
    pjoin (pjoin (pjoin (getAppSupportDir env pinfo) (sl "a11y-devkit"))
      (sl "mcp-repos")) mcpName

/-- A Mac platform record, as `getPlatform()` produces on darwin. -/
def macPlatform : PlatformInfo := ⟨sl "darwin", false, true, false⟩

/-- A host descriptor declaring a macOS global-path override, in the shape
the first resolver understands. -/
def overrideHost : IdeConfig :=
  { id := sl "zed"
    displayName := sl "Zed"
    skillsFolder := none
    mcpConfigFile := none
    mcpServerKey := some (sl "context_servers")
    globalPaths := some ⟨none, some ⟨some (sl "zed/skills"), some (sl "zed/settings.json")⟩⟩ }

/-- A sample environment. -/
def sampleEnv : Env := ⟨sl "/home/u", none, none⟩

/-- C6: the two global-path resolvers are not equivalent — on Mac, for a host
declaring platform overrides, `getIdePaths` resolves the override names
against the application-support base while `getHostApplicationPaths` joins
the home directory with the default names, giving different global config
and skills paths. -/
theorem global_path_resolvers_diverge :
    (getIdePaths sampleEnv (sl "/proj") macPlatform [overrideHost]).map
        (fun p => (p.2.mcpConfig, p.2.skillsDir))
      ≠ (getHostApplicationPaths sampleEnv (sl "/proj") macPlatform [overrideHost]).map
        (fun p => (p.2.mcpConfig, p.2.skillsDir)) := by
  decide

/-! ## RepoProvisioner: ensureRepo (src/installers/repo.js:28-44)

The filesystem is a set of existing paths; the external `git` runner is an
oracle transforming the filesystem and reporting success.  `ensureRepo`
returns the (possibly) updated filesystem together with its outcome. -/

/-- The git commands `ensureRepo` can spawn. -/
inductive GitCmd where
  | pullFfOnly (dir : Str)
  | cloneDepth1 (url dir : Str)
deriving DecidableEq

/-- Abstract filesystem state: the set of existing paths. -/
structure FS where
  paths : List Str
deriving DecidableEq

/-- `pathExists` (an `fs.access` probe). -/
def pathExistsFS (fs : FS) (p : Str) : Bool := decide (p ∈ fs.paths)

/-- The errors `ensureRepo` can throw. -/
inductive RepoError where
  | notGitRepo (dir : Str)
  | commandFailed (c : GitCmd)
deriving DecidableEq

/-- The action tag returned on success. -/
inductive RepoAction where
  | updated
  | cloned
deriving DecidableEq

/-- `path.join(dir, ".git")`: the managed-repository marker. -/
def gitDirOf (dir : Str) : Str := pjoin dir (sl ".git")

/-- `ensureRepo({url, dir})` from src/installers/repo.js:28-44, with the
spawned git commands interpreted by the oracle `runGit` (returning the new
filesystem and whether the command exited 0). -/
def ensureRepo (runGit : FS → GitCmd → FS × Bool) (fs : FS) (url dir : Str) :
    FS × Except RepoError RepoAction :=
  if pathExistsFS fs dir then
    if pathExistsFS fs (gitDirOf dir) then
      let r := runGit fs (.pullFfOnly dir)
      (r.1, if r.2 then .ok .updated else .error (.commandFailed (.pullFfOnly dir)))
    else (fs, .error (.notGitRepo dir))
  else
    let r := runGit fs (.cloneDepth1 url dir)
    (r.1, if r.2 then .ok .cloned else .error (.commandFailed (.cloneDepth1 url dir)))

/-- C5: when the target directory exists but lacks the `.git` marker,
`ensureRepo` fails with the not-a-managed-repository error before running any
command, leaving the filesystem exactly as it was — for every possible git
interpreter. -/
theorem ensureRepo_not_git_repo (runGit : FS → GitCmd → FS × Bool) (fs : FS)
    (url dir : Str)
    (hdir : pathExistsFS fs dir = true)
    (hgit : pathExistsFS fs (gitDirOf dir) = false) :
    ensureRepo runGit fs url dir = (fs, .error (.notGitRepo dir)) := by
  unfold ensureRepo
  rw [hdir, hgit]
  simp

/-- Concrete instance of the C5 failure, under a git interpreter that would
mutate the filesystem if it were ever invoked. -/
theorem ensureRepo_not_git_repo_witness :
    ensureRepo (fun fs _ => (⟨sl "/tmp/x" :: fs.paths⟩, true)) ⟨[sl "/repo"]⟩
      (sl "https://example.com/r.git") (sl "/repo")
      = (⟨[sl "/repo"]⟩, .error (.notGitRepo (sl "/repo"))) :=
  ensureRepo_not_git_repo _ _ _ _ (by decide) (by decide)

/-! ## installGitMcp (src/paths.js:552-611)

External effects are supplied as an oracle record: whether the repo path
already exists, the user's answer to the overwrite prompt (`none` models
cancelling the prompt, which the `onCancel` handler turns into a throw), and
the outcomes of the clone and of the build. -/

/-- Oracle for one `installGitMcp` invocation. -/
structure InstallCtx where
  repoAlreadyExists : Bool
  overwriteAnswer : Option Bool
  cloneOk : Bool
  buildOk : Bool

/-- The MCP configuration argument `{name, repoUrl, type, command, args,
buildCommand}`. -/
structure McpConfig where
  name : Str
  repoUrl : Str
  type : Option Str
  command : Str
  args : Option (List Str)
  buildCommand : Str

/-- The server object returned for config installation. -/
structure McpServer where
  name : Str
  type : Option Str
  command : Str
  args : Option (List Str)
  repoPath : Str
deriving DecidableEq

/-- The errors `installGitMcp` can throw. -/
inductive InstallError where
  | cancelledByUser
  | existingNotOverwritten
  | cloneFailed
deriving DecidableEq

/-- The warning emitted when the repo path already exists. -/
def alreadyExistsWarning (name repoPath : Str) : Str :=
  sl "MCP server '" ++ name ++ sl "' already exists at " ++ repoPath

/-- The warning emitted when the build command fails. -/
def buildFailedWarning : Str :=
  sl "Build command failed but continuing with installation"

/-- `installGitMcp(mcpConfig, repoScope, projectRoot, platformInfo,
getMcpRepoDir)` from src/paths.js:552-611: returns the emitted warnings and
the server descriptor, or the thrown error. -/
def installGitMcp (ctx : InstallCtx) (cfg : McpConfig) (repoScope : Str)
    (projectRoot : Str) (pinfo : PlatformInfo) (env : Env) :
    Except InstallError (List Str × McpServer) :=
  let repoPath := getMcpRepoDir env repoScope projectRoot pinfo cfg.name
  let existWarns :=
    if ctx.repoAlreadyExists then [alreadyExistsWarning cfg.name repoPath] else []
  let gate : Option InstallError :=
    if ctx.repoAlreadyExists then
      match ctx.overwriteAnswer with
      | none => some .cancelledByUser
      | some false => some .existingNotOverwritten
      | some true => none
    else none
  match gate with
  | some e => .error e
  | none =>
    if ctx.cloneOk then
      let buildWarns := if ctx.buildOk then [] else [buildFailedWarning]
      .ok (existWarns ++ buildWarns,
           ⟨cfg.name, cfg.type, cfg.command, cfg.args, repoPath⟩)
    else .error .cloneFailed

/-- C8: whenever the clone succeeds (and any pre-existing installation was
confirmed for overwrite, so the invocation reaches the build step), a failing
build does not fail the installation: the build-failure warning is emitted
and the server descriptor `{name, type, command, args, repoPath}` is still
returned. -/
theorem installGitMcp_build_failure_nonfatal (ctx : InstallCtx) (cfg : McpConfig)
    (repoScope projectRoot : Str) (pinfo : PlatformInfo) (env : Env)
    (hclone : ctx.cloneOk = true)
    (hprompt : ctx.repoAlreadyExists = true → ctx.overwriteAnswer = some true)
    (hbuild : ctx.buildOk = false) :
    ∃ warns,
      installGitMcp ctx cfg repoScope projectRoot pinfo env =
        .ok (warns,
          ⟨cfg.name, cfg.type, cfg.command, cfg.args,
           getMcpRepoDir env repoScope projectRoot pinfo cfg.name⟩) ∧
      buildFailedWarning ∈ warns := by
  unfold installGitMcp
  rcases hex : ctx.repoAlreadyExists with _ | _
  · simp only [hex, if_false, hclone, if_true, hbuild]
    exact ⟨[buildFailedWarning], rfl, by simp⟩
  · rw [hprompt hex]
    simp only [hex, if_true, hclone, hbuild]
    exact ⟨[alreadyExistsWarning cfg.name
        (getMcpRepoDir env repoScope projectRoot pinfo cfg.name), buildFailedWarning],
      rfl, by simp⟩

/-- Concrete instance of C8: clone succeeds, build fails, install returns the
descriptor with a warning. -/
theorem installGitMcp_build_failure_nonfatal_witness :
    ∃ warns,
      installGitMcp ⟨false, none, true, false⟩
          ⟨sl "wcag", sl "u", none, sl "node", some [sl "i.js"], sl "npm i"⟩
          (sl "local") (sl "/proj") macPlatform sampleEnv =
        .ok (warns,
          ⟨sl "wcag", none, sl "node", some [sl "i.js"],
           getMcpRepoDir sampleEnv (sl "local") (sl "/proj") macPlatform (sl "wcag")⟩) ∧
      buildFailedWarning ∈ warns :=
  installGitMcp_build_failure_nonfatal ⟨false, none, true, false⟩
    ⟨sl "wcag", sl "u", none, sl "node", some [sl "i.js"], sl "npm i"⟩
    (sl "local") (sl "/proj") macPlatform sampleEnv
    rfl (by intro h; cases h) rfl

/-! ## Explicit-heap embedding of mergeServers / removeServers

To settle the mutation claim, the same two source functions are re-embedded
with JS object identity made explicit: the heap is a list of objects indexed
by allocation order, object-valued fields hold references, and the spreads
(`{...existing}`, `{...existingServers}`) allocate fresh objects which the
loops then update through `heapSet`.  Arrays are kept inline since neither
function ever mutates an array. -/

/-- A heap address (allocation index). -/
abbrev ObjId := Nat

/-- A field value in the heap model: string, array (immutable here), or a
reference to another heap object. -/
inductive HVal where
  | hstr : Str → HVal
  | harr : List Str → HVal
  | href : ObjId → HVal
deriving DecidableEq

/-- A heap object: ordered fields. -/
abbrev HObj := List (Str × HVal)

/-- The heap: object number `i` lives at index `i`. -/
abbrev Heap := List HObj

/-- Dereference (out-of-range reads never occur in the modelled runs). -/
def heapGet (h : Heap) (i : ObjId) : HObj := h.getD i []

/-- In-place update of object `i`. -/
def heapSet (h : Heap) (i : ObjId) (o : HObj) : Heap := h.set i o

/-- Allocate a fresh object, returning its address. -/
def halloc (h : Heap) (o : HObj) : Heap × ObjId := (h ++ [o], h.length)

/-- `{...arr}` in the heap model. -/
def arrToHObj (l : List Str) : HObj :=
  l.enum.map fun p => (Nat.toDigits 10 p.1, HVal.hstr p.2)

/-- The section as `existing[serverKey] && typeof === "object"` reads it in
the heap model: a reference (to an object) or an array qualifies. -/
def sectionEntriesH (h : Heap) : Option HVal → Option HObj
  | some (.href sid) => some (heapGet h sid)
  | some (.harr l) => some (arrToHObj l)
  | _ => none

/-- The fresh `serverConfig` object literal of the merge loop. -/
def serverConfigH (s : Server) : HObj :=
  [(sl "command", HVal.hstr s.command), (sl "args", HVal.harr (s.args.getD []))] ++
    (match s.type with
     | some t => if t = [] then [] else [(sl "type", HVal.hstr t)]
     | none => [])

/-- One iteration of the merge loop in the heap model: allocate the config
object, then assign it into the (shared, freshly allocated) section object. -/
def mergeLoopH (secId : ObjId) (hAcc : Heap) (s : Server) : Heap :=
  let al := halloc hAcc (serverConfigH s)
  heapSet al.1 secId (aset (heapGet al.1 secId) s.name (HVal.href al.2))

/-- `mergeServers` on the heap: spread the section into a fresh object,
spread the document into a fresh object pointing at it, run the loop. -/
def mergeServersH (h : Heap) (docId : ObjId) (incoming : List Server) (k : Str) :
    Heap × ObjId :=
  let doc := heapGet h docId
  let existingEntries := (sectionEntriesH h (aget doc k)).getD []
  let a1 := halloc h existingEntries
  let a2 := halloc a1.1 (aset doc k (HVal.href a1.2))
  (incoming.foldl (mergeLoopH a1.2) a2.1, a2.2)

/-- One iteration of the remove loop in the heap model. -/
def removeLoopH (upId : ObjId) (p : Heap × Nat) (n : Str) : Heap × Nat :=
  if (aget (heapGet p.1 upId) n).isSome then
    (heapSet p.1 upId (adel (heapGet p.1 upId) n), p.2 + 1)
  else p

/-- `removeServers` on the heap: spread the section into a fresh copy, delete
names from the copy, and on change spread the document into a fresh object
that either drops the section key or points at the copy. -/
def removeServersH (h : Heap) (docId : ObjId) (removeNames : List Str) (k : Str) :
    Heap × ObjId × Nat :=
  let doc := heapGet h docId
  match sectionEntriesH h (aget doc k) with
  | none => (h, docId, 0)
  | some es =>
    let a1 := halloc h es
    let res := removeNames.foldl (removeLoopH a1.2) (a1.1, 0)
    if res.2 = 0 then (res.1, docId, 0)
    else
      let a2 := halloc res.1 (heapGet res.1 docId)
      let updated :=
        if heapGet a2.1 a1.2 = [] then adel (heapGet a2.1 a2.2) k
        else aset (heapGet a2.1 a2.2) k (HVal.href a1.2)
      (heapSet a2.1 a2.2 updated, a2.2, res.2)

/-! ## Minimal TOML parser / stringifier (src/paths.js:196-289) -/

/-- Read a value as an object for nested access (`result[section]` etc.);
in every state the parser actually reaches these reads are objects, so the
fallback is never exercised. -/
def objOfJ : Option JValue → JObj
  | some (.obj o) => o
  | some (.arr l) => arrToJObj l
  | _ => []

/-- `typeof v === "object" && v !== null`: the entry list `Object.entries`
iterates for the stringifier (arrays enumerate as index/element pairs). -/
def entriesOfJ : JValue → Option JObj
  | .obj o => some o
  | .arr l => some (arrToJObj l)
  | .str _ => none

/-- The regex `^\[([^\]]+)\]$` on a trimmed line: bracketed, non-empty inner
text containing no `]`. -/
def headerInner (t : Str) : Option Str :=
  if t.head? = some '[' ∧ t.getLast? = some ']' ∧ 3 ≤ t.length ∧
      ']' ∉ (t.drop 1).dropLast then
    some ((t.drop 1).dropLast)
  else none

/-- The regex `^(\w+)\s*=\s*(.+)$` on a trimmed line: a leading word-character
run, optional spaces, `=`, optional spaces, and a non-empty remainder. -/
def kvSplit (t : Str) : Option (Str × Str) :=
  let key := t.takeWhile wordChar
  if key.isEmpty then none
  else
    match (t.dropWhile wordChar).dropWhile Char.isWhitespace with
    | '=' :: rest =>
      let value := rest.dropWhile Char.isWhitespace
      if value.isEmpty then none else some (key, value)
    | _ => none

/-- `startsWith('"') && endsWith('"')` (true for the single character `"`). -/
def isQuoted (s : Str) : Bool := s.head? = some '"' && s.getLast? = some '"'

/-- `slice(1, -1)`. -/
def stripQuotes (s : Str) : Str := (s.drop 1).dropLast

/-- One array element: trim, then remove surrounding quotes if present. -/
def parseItem (item : Str) : Str :=
  let ti := trimStr item
  if isQuoted ti then stripQuotes ti else ti

/-- Text before the last `]` (the greedy capture of `/\[(.*)\]/` after its
opening bracket). -/
def beforeLastClose (s : Str) : Str :=
  ((s.reverse.dropWhile (fun c => c != ']')).drop 1).reverse

/-- The unanchored regex `/\[(.*)\]/` applied to a value that starts with
`[`: capture from after the bracket to the last `]`, or fail. -/
def arrayInner (value : Str) : Option Str :=
  let tl := value.drop 1
  if ']' ∈ tl then some (beforeLastClose tl) else none

/-- Parse one `key = value` right-hand side: bracketed values become string
arrays (silently dropped if no `]` ever closes them), double-quoted values
lose their quotes, anything else is stored verbatim. -/
def parseValue (value : Str) : Option JValue :=
  if value.head? = some '[' then
    match arrayInner value with
    | some inner => some (.arr ((splitOnChar ',' inner).map parseItem))
    | none => none
  else if isQuoted value then some (.str (stripQuotes value))
  else some (.str value)

/-- Parser state: the accumulated document and the open section/table
(`null` initially; an empty name is falsy and also blocks assignment). -/
structure PState where
  result : JObj
  currentSection : Option Str
  currentTable : Option Str

/-- `if (!result[section][table]) result[section][table] = {}`, performed on
the document after the section itself was ensured. -/
def ensureTable2 (r1 : JObj) (sec tab : Str) : JObj :=
  if truthyOpt (aget (objOfJ (aget r1 sec)) tab) then r1
  else aset r1 sec (.obj (aset (objOfJ (aget r1 sec)) tab (.obj [])))

/-- `if (!result[section]) result[section] = {}; if (!result[section][table])
result[section][table] = {}`. -/
def ensureTables (r : JObj) (sec tab : Str) : JObj :=
  ensureTable2 (if truthyOpt (aget r sec) then r else aset r sec (.obj [])) sec tab

/-- `result[currentSection][currentTable][key] = v` (the parser creates each
section and table object fresh, so the nested functional update coincides
with the in-place mutation). -/
def assignKV (r : JObj) (cs ct key : Str) (v : JValue) : JObj :=
  let so := objOfJ (aget r cs)
  let to2 := objOfJ (aget so ct)
  aset r cs (.obj (aset so ct (.obj (aset to2 key v))))

/-- Processing of one (already trimmed) line of input. -/
def pstepT (st : PState) (t : Str) : PState :=
  if t.isEmpty then st
  else if t.head? = some '#' then st
  else
    match headerInner t with
    | some inner =>
      match splitOnChar '.' inner with
      | [sec, tab] => ⟨ensureTables st.result sec tab, some sec, some tab⟩
      | _ => st
    | none =>
      match kvSplit t with
      | some (key, value) =>
        match st.currentSection, st.currentTable with
        | some cs, some ct =>
          if cs.isEmpty || ct.isEmpty then st
          else
            match parseValue value with
            | some v =>
              ⟨assignKV st.result cs ct key v, st.currentSection, st.currentTable⟩
            | none => st
        | _, _ => st
      | none => st

/-- Processing of one raw line: trim, then dispatch. -/
def pstep (st : PState) (line : Str) : PState := pstepT st (trimStr line)

/-- `parseSimpleToml(content)` from src/paths.js:197-255. -/
def parseSimpleToml (content : Str) : JObj :=
  ((splitOnChar '\n' content).foldl pstep ⟨[], none, none⟩).result

/-- `"${v}"`. -/
def quoteStr (s : Str) : Str := '"' :: s ++ ['"']

/-- One `key = value` output line. -/
def kvLine (k : Str) (v : JValue) : Str :=
  match v with
  | .arr l => k ++ sl " = [" ++ joinSep (sl ", ") (l.map quoteStr) ++ [']']
  | .str s => k ++ sl " = " ++ quoteStr s
  | .obj _ => k ++ sl " = [object Object]"

/-- `[section.tableName]`. -/
def headerLine (sec tab : Str) : Str := '[' :: sec ++ '.' :: tab ++ [']']

/-- The lines emitted for one table: header, key/value lines, blank line. -/
def tableLines (sec : Str) (tname : Str) (config : JValue) : List Str :=
  match entriesOfJ config with
  | none => []
  | some cfg => headerLine sec tname :: cfg.map (fun r => kvLine r.1 r.2) ++ [[]]

/-- All lines of the document. -/
def tomlLines (obj : JObj) : List Str :=
  obj.flatMap fun p =>
    match entriesOfJ p.2 with
    | none => []
    | some ts => ts.flatMap fun q => tableLines p.1 q.1 q.2

/-- `stringifySimpleToml(obj)` from src/paths.js:258-289. -/
def stringifySimpleToml (obj : JObj) : Str := joinSep ['\n'] (tomlLines obj)

/-- Nested lookup `result[s][t][k]` through object values. -/
def tripleGet (r : JObj) (s t k : Str) : Option JValue :=
  match aget r s with
  | some (.obj ts) =>
    match aget ts t with
    | some (.obj cfg) => aget cfg k
    | _ => none
  | _ => none

/-! ## Split / join / trim lemmas -/

theorem splitOnChar_cons_eq (sep c : Char) (cs : Str) :
    splitOnChar sep (c :: cs) =
      if c = sep then [] :: splitOnChar sep cs
      else
        match splitOnChar sep cs with
        | [] => [[c]]
        | h :: t => (c :: h) :: t := rfl

theorem splitOnChar_ne_nil (sep : Char) (l : Str) : splitOnChar sep l ≠ [] := by
  cases l with
  | nil => simp [splitOnChar]
  | cons c cs =>
    unfold splitOnChar
    by_cases h : c = sep
    · simp [h]
    · simp only [h, if_false]
      rcases splitOnChar sep cs with _ | ⟨h2, t2⟩ <;> simp

theorem splitOnChar_of_not_mem (sep : Char) (l : Str) (h : sep ∉ l) :
    splitOnChar sep l = [l] := by
  induction l with
  | nil => rfl
  | cons c cs ih =>
    simp only [List.mem_cons] at h
    push_neg at h
    have hc : ¬(c = sep) := fun hh => h.1 hh.symm
    unfold splitOnChar
    rw [if_neg hc, ih h.2]

theorem splitOnChar_append_sep (sep : Char) (l rest : Str) (h : sep ∉ l) :
    splitOnChar sep (l ++ sep :: rest) = l :: splitOnChar sep rest := by
  induction l with
  | nil => simp [splitOnChar]
  | cons c cs ih =>
    simp only [List.mem_cons] at h
    push_neg at h
    have hc : ¬(c = sep) := fun hh => h.1 hh.symm
    simp only [List.cons_append]
    rw [splitOnChar_cons_eq, if_neg hc, ih h.2]

theorem splitOnChar_cons_ne (sep c : Char) (l : Str) (h : ¬(c = sep))
    (h2 : Str) (t2 : List Str) (hsp : splitOnChar sep l = h2 :: t2) :
    splitOnChar sep (c :: l) = (c :: h2) :: t2 := by
  unfold splitOnChar
  rw [if_neg h, hsp]

theorem splitOnChar_joinSep (sep : Char) (ls : List Str) (hne : ls ≠ [])
    (h : ∀ l ∈ ls, sep ∉ l) :
    splitOnChar sep (joinSep [sep] ls) = ls := by
  induction ls with
  | nil => exact absurd rfl hne
  | cons l rest ih =>
    cases rest with
    | nil =>
      show splitOnChar sep l = [l]
      exact splitOnChar_of_not_mem sep l (h l (List.mem_cons_self _ _))
    | cons l2 rest2 =>
      show splitOnChar sep (l ++ [sep] ++ joinSep [sep] (l2 :: rest2)) = _
      rw [List.append_assoc, List.singleton_append,
          splitOnChar_append_sep sep l _ (h l (List.mem_cons_self _ _)),
          ih (by simp) (fun l3 h3 => h l3 (List.mem_cons_of_mem _ h3))]

theorem dropWhile_cons_false {p : Char → Bool} {c : Char} (l : Str)
    (h : p c = false) : (c :: l).dropWhile p = c :: l := by
  simp [List.dropWhile, h]

theorem trimStr_eq_self (s : Str)
    (h1 : ∀ c, s.head? = some c → c.isWhitespace = false)
    (h2 : ∀ c, s.getLast? = some c → c.isWhitespace = false) :
    trimStr s = s := by
  cases s with
  | nil => rfl
  | cons c l =>
    unfold trimStr
    rw [dropWhile_cons_false l (h1 c rfl)]
    rcases hrev : (c :: l).reverse with _ | ⟨c2, l2⟩
    · exact absurd hrev (by simp)
    · have hlast : (c :: l).getLast? = some c2 := by
        rw [← List.head?_reverse, hrev]
        rfl
      rw [dropWhile_cons_false l2 (h2 c2 hlast), ← hrev, List.reverse_reverse]

/-! ## Character facts and regex-fragment lemmas -/

theorem wordChar_not_ws (c : Char) (h : wordChar c = true) :
    c.isWhitespace = false := by
  rcases hw : c.isWhitespace with _ | _
  · rfl
  · exfalso
    have hmem : ((c = ' ' ∨ c = '\t') ∨ c = '\r') ∨ c = '\n' := by
      simpa [Char.isWhitespace] using hw
    rcases hmem with ((rfl | rfl) | rfl) | rfl <;> exact absurd h (by decide)

theorem wordChar_ne_bracket (c : Char) (h : wordChar c = true) : c ≠ '[' := by
  intro hc
  rw [hc] at h
  exact absurd h (by decide)

theorem wordChar_ne_hash (c : Char) (h : wordChar c = true) : c ≠ '#' := by
  intro hc
  rw [hc] at h
  exact absurd h (by decide)

theorem wordChar_ne_newline (c : Char) (h : wordChar c = true) : c ≠ '\n' := by
  intro hc
  rw [hc] at h
  exact absurd h (by decide)

theorem takeWhile_append_block {p : Char → Bool} (k : Str) (c : Char) (rest : Str)
    (hk : ∀ x ∈ k, p x = true) (hc : p c = false) :
    (k ++ c :: rest).takeWhile p = k ∧ (k ++ c :: rest).dropWhile p = c :: rest := by
  induction k with
  | nil => simp [List.takeWhile, List.dropWhile, hc]
  | cons x k2 ih =>
    have hx : p x = true := hk x (List.mem_cons_self _ _)
    have ih2 := ih (fun y hy => hk y (List.mem_cons_of_mem _ hy))
    constructor
    · show (x :: (k2 ++ c :: rest)).takeWhile p = x :: k2
      simp only [List.takeWhile, hx]
      rw [ih2.1]
    · show (x :: (k2 ++ c :: rest)).dropWhile p = c :: rest
      simp only [List.dropWhile, hx]
      exact ih2.2

theorem cons_head_getLast_concat (c : Char) (mid : Str) (d : Char) :
    (c :: mid ++ [d]).head? = some c ∧ (c :: mid ++ [d]).getLast? = some d := by
  constructor
  · rfl
  · rw [show c :: mid ++ [d] = (c :: mid) ++ [d] from rfl]
    exact List.getLast?_concat _

/-- The value text written by the stringifier for one config value. -/
def valueOf : JValue → Str
  | .str s => quoteStr s
  | .arr l => '[' :: joinSep (sl ", ") (l.map quoteStr) ++ [']']
  | .obj _ => sl "[object Object]"

theorem kvLine_eq_valueOf (k : Str) (v : JValue) :
    kvLine k v = k ++ ' ' :: '=' :: ' ' :: valueOf v := by
  cases v <;> simp [kvLine, valueOf, sl, quoteStr]

theorem quoteStr_concat (s : Str) : quoteStr s = ('"' :: s) ++ ['"'] := by
  simp [quoteStr]

theorem parseValue_quoteStr (s : Str) : parseValue (quoteStr s) = some (.str s) := by
  have hh : (quoteStr s).head? = some '"' := rfl
  have hl : (quoteStr s).getLast? = some '"' := by
    rw [quoteStr_concat]; exact List.getLast?_concat _
  unfold parseValue
  rw [hh, if_neg (by decide)]
  rw [if_pos (by simp [isQuoted, hh, hl])]
  have : stripQuotes (quoteStr s) = s := by
    unfold stripQuotes
    rw [quoteStr_concat]
    show (s ++ ['"']).dropLast = s
    exact List.dropLast_concat
  rw [this]

theorem trimStr_quoteStr (s : Str) : trimStr (quoteStr s) = quoteStr s := by
  apply trimStr_eq_self
  · intro c hc
    rw [show (quoteStr s).head? = some '"' from rfl] at hc
    cases hc; rfl
  · intro c hc
    rw [quoteStr_concat, List.getLast?_concat] at hc
    cases hc; rfl

theorem parseItem_quoteStr (e : Str) : parseItem (quoteStr e) = e := by
  unfold parseItem
  rw [trimStr_quoteStr]
  rw [if_pos (by
    simp [isQuoted, show (quoteStr e).head? = some '"' from rfl,
      show (quoteStr e).getLast? = some '"' from by
        rw [quoteStr_concat]; exact List.getLast?_concat _])]
  unfold stripQuotes
  rw [quoteStr_concat]
  show (e ++ ['"']).dropLast = e
  exact List.dropLast_concat

theorem parseItem_space_quoteStr (e : Str) : parseItem (' ' :: quoteStr e) = e := by
  unfold parseItem
  have ht : trimStr (' ' :: quoteStr e) = trimStr (quoteStr e) := by
    unfold trimStr
    rfl
  rw [ht, trimStr_quoteStr]
  rw [if_pos (by
    simp [isQuoted, show (quoteStr e).head? = some '"' from rfl,
      show (quoteStr e).getLast? = some '"' from by
        rw [quoteStr_concat]; exact List.getLast?_concat _])]
  unfold stripQuotes
  rw [quoteStr_concat]
  show (e ++ ['"']).dropLast = e
  exact List.dropLast_concat

theorem splitJoin_quote (e1 : Str) (rest : List Str)
    (h : ∀ e ∈ e1 :: rest, ',' ∉ e) :
    splitOnChar ',' (joinSep (sl ", ") ((e1 :: rest).map quoteStr))
      = quoteStr e1 :: rest.map (fun e => ' ' :: quoteStr e) := by
  induction rest generalizing e1 with
  | nil =>
    show splitOnChar ',' (quoteStr e1) = [quoteStr e1]
    apply splitOnChar_of_not_mem
    rw [quoteStr_concat]
    intro hmem
    rcases List.mem_append.mp hmem with hm | hm
    · rcases List.mem_cons.mp hm with hm | hm
      · cases hm
      · exact h e1 (List.mem_cons_self _ _) hm
    · simp at hm
  | cons e2 rest2 ih =>
    show splitOnChar ','
        (quoteStr e1 ++ sl ", " ++ joinSep (sl ", ") ((e2 :: rest2).map quoteStr))
      = _
    have hq1 : ',' ∉ quoteStr e1 := by
      rw [quoteStr_concat]
      intro hmem
      rcases List.mem_append.mp hmem with hm | hm
      · rcases List.mem_cons.mp hm with hm | hm
        · cases hm
        · exact h e1 (List.mem_cons_self _ _) hm
      · simp at hm
    rw [show quoteStr e1 ++ sl ", " ++ joinSep (sl ", ") ((e2 :: rest2).map quoteStr)
        = quoteStr e1 ++ ',' :: (' ' :: joinSep (sl ", ") ((e2 :: rest2).map quoteStr))
      from by simp [sl],
      splitOnChar_append_sep ',' _ _ hq1]
    have ih2 := ih e2 (fun e he => h e (List.mem_cons_of_mem _ he))
    rw [splitOnChar_cons_ne ',' ' ' _ (by decide) _ _ ih2]
    simp

theorem arrayInner_concat (inner : Str) :
    arrayInner ('[' :: inner ++ [']']) = some inner := by
  unfold arrayInner
  rw [show ('[' :: inner ++ [']']).drop 1 = inner ++ [']'] from rfl]
  rw [if_pos (by simp)]
  unfold beforeLastClose
  rw [List.reverse_concat]
  rw [show (']' :: inner.reverse).dropWhile (fun c => c != ']')
      = ']' :: inner.reverse from by simp [List.dropWhile]]
  simp

theorem map_parseItem_space (rest : List Str) :
    rest.map (parseItem ∘ fun e => ' ' :: quoteStr e) = rest := by
  induction rest with
  | nil => rfl
  | cons a b ih => simp [Function.comp, parseItem_space_quoteStr, ih]

theorem parseValue_arr (l : List Str) (hne : l ≠ [])
    (hc : ∀ e ∈ l, ',' ∉ e) :
    parseValue (valueOf (.arr l)) = some (.arr l) := by
  obtain ⟨e1, rest, rfl⟩ : ∃ e1 rest, l = e1 :: rest := by
    cases l with
    | nil => exact absurd rfl hne
    | cons a b => exact ⟨a, b, rfl⟩
  show parseValue ('[' :: joinSep (sl ", ") ((e1 :: rest).map quoteStr) ++ [']'])
      = some (.arr (e1 :: rest))
  unfold parseValue
  rw [if_pos (show ('[' :: joinSep (sl ", ") ((e1 :: rest).map quoteStr) ++ [']']).head?
      = some '[' from rfl)]
  rw [arrayInner_concat]
  show some (JValue.arr ((splitOnChar ','
      (joinSep (sl ", ") ((e1 :: rest).map quoteStr))).map parseItem))
    = some (JValue.arr (e1 :: rest))
  rw [splitJoin_quote e1 rest hc]
  simp only [List.map_cons, List.map_map, parseItem_quoteStr]
  rw [map_parseItem_space]

theorem valueOf_ne_nil (v : JValue) : valueOf v ≠ [] := by
  cases v <;> simp [valueOf, quoteStr, sl]

theorem valueOf_head_not_ws (v : JValue) (c : Char)
    (h : (valueOf v).head? = some c) : c.isWhitespace = false := by
  cases v with
  | str s => cases h; rfl
  | arr l => cases h; rfl
  | obj o => cases h; rfl

theorem valueOf_getLast_not_ws (v : JValue) (c : Char)
    (h : (valueOf v).getLast? = some c) : c.isWhitespace = false := by
  cases v with
  | str s =>
    rw [show valueOf (.str s) = quoteStr s from rfl, quoteStr_concat,
        List.getLast?_concat] at h
    cases h; rfl
  | arr l =>
    rw [show valueOf (.arr l) = ('[' :: joinSep (sl ", ") (l.map quoteStr)) ++ [']']
        from by simp [valueOf], List.getLast?_concat] at h
    cases h; rfl
  | obj o =>
    rw [show (valueOf (.obj o)).getLast? = some ']' from rfl] at h
    cases h; rfl

theorem dropWhile_ws_space (x : Str) :
    (' ' :: x).dropWhile Char.isWhitespace = x.dropWhile Char.isWhitespace := by
  simp [List.dropWhile]

theorem kvSplit_key_value (k : Str) (val : Str)
    (hk1 : k ≠ []) (hk2 : ∀ x ∈ k, wordChar x = true)
    (hvhead : ∀ c, val.head? = some c → c.isWhitespace = false)
    (hvne : val ≠ []) :
    kvSplit (k ++ ' ' :: '=' :: ' ' :: val) = some (k, val) := by
  obtain ⟨tw, dw⟩ := takeWhile_append_block k ' ' ('=' :: ' ' :: val) hk2 (by decide)
  obtain ⟨c, val2, rfl⟩ : ∃ c val2, val = c :: val2 := by
    cases val with
    | nil => exact absurd rfl hvne
    | cons a b => exact ⟨a, b, rfl⟩
  have hcws : c.isWhitespace = false := hvhead c rfl
  unfold kvSplit
  rw [tw, dw]
  rw [if_neg (by simpa using hk1)]
  rw [dropWhile_ws_space,
      dropWhile_cons_false (' ' :: c :: val2) (show ('=').isWhitespace = false from rfl)]
  show (if (((' ' :: c :: val2).dropWhile Char.isWhitespace).isEmpty) = true then
      none else some (k, (' ' :: c :: val2).dropWhile Char.isWhitespace)) = _
  rw [dropWhile_ws_space, dropWhile_cons_false val2 hcws]
  simp

theorem kvLine_trim (k : Str) (v : JValue)
    (hk1 : k ≠ []) (hk2 : ∀ x ∈ k, wordChar x = true) :
    trimStr (kvLine k v) = kvLine k v := by
  rw [kvLine_eq_valueOf]
  obtain ⟨c, k2, rfl⟩ : ∃ c k2, k = c :: k2 := by
    cases k with
    | nil => exact absurd rfl hk1
    | cons a b => exact ⟨a, b, rfl⟩
  apply trimStr_eq_self
  · intro c2 hc2
    rw [show ((c :: k2) ++ ' ' :: '=' :: ' ' :: valueOf v).head? = some c from rfl] at hc2
    cases hc2
    exact wordChar_not_ws c (hk2 c (List.mem_cons_self _ _))
  · intro c2 hc2
    rw [show (c :: k2) ++ ' ' :: '=' :: ' ' :: valueOf v
        = (c :: k2) ++ ([' ', '=', ' '] ++ valueOf v) from rfl,
      List.getLast?_append_of_ne_nil _ (by
        intro hx
        exact valueOf_ne_nil v (by simpa using congrArg (List.drop 3) hx)),
      List.getLast?_append_of_ne_nil _ (valueOf_ne_nil v)] at hc2
    exact valueOf_getLast_not_ws v c2 hc2

theorem kvSplit_head (t key value : Str) (h : kvSplit t = some (key, value)) :
    ∃ c t2, t = c :: t2 ∧ wordChar c = true := by
  cases t with
  | nil => simp [kvSplit, List.takeWhile] at h
  | cons c t2 =>
    by_cases hw : wordChar c
    · exact ⟨c, t2, rfl, hw⟩
    · exfalso
      have hempty : (c :: t2).takeWhile wordChar = [] := by
        simp [List.takeWhile, hw]
      simp [kvSplit, hempty] at h

theorem headerInner_none_of_head (t : Str) (h : ¬t.head? = some '[') :
    headerInner t = none := by
  unfold headerInner
  rw [if_neg]
  intro hcond
  exact h hcond.1

theorem headerInner_some (t inner : Str) (h : headerInner t = some inner) :
    t.head? = some '[' ∧ inner = (t.drop 1).dropLast := by
  unfold headerInner at h
  by_cases hC : (t.head? = some '[' ∧ t.getLast? = some ']' ∧ 3 ≤ t.length ∧
      ']' ∉ (t.drop 1).dropLast)
  · rw [if_pos hC] at h
    cases h
    exact ⟨hC.1, rfl⟩
  · rw [if_neg hC] at h
    cases h

theorem pstepT_kv (r : JObj) (cs ct : Str) (t key value : Str) (pv : JValue)
    (hkv : kvSplit t = some (key, value))
    (hpv : parseValue value = some pv)
    (hcs : cs ≠ []) (hct : ct ≠ []) :
    pstepT ⟨r, some cs, some ct⟩ t = ⟨assignKV r cs ct key pv, some cs, some ct⟩ := by
  obtain ⟨c, t2, rfl, hw⟩ := kvSplit_head _ _ _ hkv
  unfold pstepT
  rw [if_neg (by simp)]
  rw [if_neg (by
    intro hh
    rw [show (c :: t2).head? = some c from rfl] at hh
    cases hh
    exact wordChar_ne_hash _ hw rfl)]
  rw [headerInner_none_of_head _ (by
    intro hh
    rw [show (c :: t2).head? = some c from rfl] at hh
    cases hh
    exact wordChar_ne_bracket _ hw rfl)]
  show (match kvSplit (c :: t2) with
    | some (key, value) =>
      match some cs, some ct with
      | some cs2, some ct2 =>
        if cs2.isEmpty || ct2.isEmpty then (⟨r, some cs, some ct⟩ : PState)
        else
          match parseValue value with
          | some v => ⟨assignKV r cs2 ct2 key v, some cs, some ct⟩
          | none => ⟨r, some cs, some ct⟩
      | _, _ => ⟨r, some cs, some ct⟩
    | none => ⟨r, some cs, some ct⟩) = _
  rw [hkv]
  show (if cs.isEmpty || ct.isEmpty then (⟨r, some cs, some ct⟩ : PState)
    else
      match parseValue value with
      | some v => ⟨assignKV r cs ct key v, some cs, some ct⟩
      | none => ⟨r, some cs, some ct⟩) = _
  rw [if_neg (by simp [hcs, hct]), hpv]

theorem pstep_kv (r : JObj) (cs ct : Str) (line : Str) (key value : Str) (pv : JValue)
    (hkv : kvSplit (trimStr line) = some (key, value))
    (hpv : parseValue value = some pv)
    (hcs : cs ≠ []) (hct : ct ≠ []) :
    pstep ⟨r, some cs, some ct⟩ line = ⟨assignKV r cs ct key pv, some cs, some ct⟩ :=
  pstepT_kv r cs ct _ key value pv hkv hpv hcs hct

theorem pstep_kvLine (r : JObj) (cs ct : Str) (k : Str) (v : JValue)
    (hk1 : k ≠ []) (hk2 : ∀ x ∈ k, wordChar x = true)
    (hpv : parseValue (valueOf v) = some v)
    (hcs : cs ≠ []) (hct : ct ≠ []) :
    pstep ⟨r, some cs, some ct⟩ (kvLine k v)
      = ⟨assignKV r cs ct k v, some cs, some ct⟩ := by
  apply pstep_kv
  · rw [kvLine_trim k v hk1 hk2, kvLine_eq_valueOf]
    exact kvSplit_key_value k (valueOf v) hk1 hk2
      (valueOf_head_not_ws v) (valueOf_ne_nil v)
  · exact hpv
  · exact hcs
  · exact hct

theorem headerLine_concat (sec tab : Str) :
    headerLine sec tab = '[' :: ((sec ++ '.' :: tab) ++ [']']) := by
  simp [headerLine]

theorem headerInner_headerLine (sec tab : Str)
    (hsb : ']' ∉ sec) (htb : ']' ∉ tab) :
    headerInner (headerLine sec tab) = some (sec ++ '.' :: tab) := by
  have hmem : ']' ∉ sec ++ '.' :: tab := by
    intro hx
    rcases List.mem_append.mp hx with hx | hx
    · exact hsb hx
    · rcases List.mem_cons.mp hx with hx | hx
      · cases hx
      · exact htb hx
  unfold headerInner
  rw [if_pos]
  · rw [headerLine_concat]
    show some (((sec ++ '.' :: tab) ++ [']']).dropLast) = _
    rw [List.dropLast_concat]
  · refine ⟨rfl, ?_, ?_, ?_⟩
    · rw [headerLine_concat]
      rw [show ('[' :: ((sec ++ '.' :: tab) ++ [']'])) =
        ('[' :: (sec ++ '.' :: tab)) ++ [']'] from rfl]
      exact List.getLast?_concat _
    · simp [headerLine]
      omega
    · rw [headerLine_concat]
      show ']' ∉ ((sec ++ '.' :: tab) ++ [']']).dropLast
      rw [List.dropLast_concat]
      exact hmem

theorem headerLine_trim (sec tab : Str) : trimStr (headerLine sec tab) = headerLine sec tab := by
  apply trimStr_eq_self
  · intro c hc
    rw [show (headerLine sec tab).head? = some '[' from rfl] at hc
    cases hc; rfl
  · intro c hc
    rw [headerLine_concat,
      show ('[' :: ((sec ++ '.' :: tab) ++ [']'])) =
        ('[' :: (sec ++ '.' :: tab)) ++ [']'] from rfl,
      List.getLast?_concat] at hc
    cases hc; rfl

theorem pstep_header (r : JObj) (cs0 ct0 : Option Str) (sec tab : Str)
    (hsd : '.' ∉ sec) (hsb : ']' ∉ sec)
    (htd : '.' ∉ tab) (htb : ']' ∉ tab) :
    pstep ⟨r, cs0, ct0⟩ (headerLine sec tab)
      = ⟨ensureTables r sec tab, some sec, some tab⟩ := by
  unfold pstep
  rw [headerLine_trim]
  unfold pstepT
  rw [if_neg (by simp [headerLine])]
  rw [if_neg (by rw [show (headerLine sec tab).head? = some '[' from rfl]; simp)]
  rw [headerInner_headerLine sec tab hsb htb]
  show (match splitOnChar '.' (sec ++ '.' :: tab) with
    | [sec2, tab2] =>
      (⟨ensureTables r sec2 tab2, some sec2, some tab2⟩ : PState)
    | _ => ⟨r, cs0, ct0⟩) = _
  rw [splitOnChar_append_sep '.' sec tab hsd, splitOnChar_of_not_mem '.' tab htd]

theorem pstep_badheader (st : PState) (line inner : Str)
    (hh : headerInner (trimStr line) = some inner)
    (hlen : (splitOnChar '.' inner).length ≠ 2) :
    pstep st line = st := by
  obtain ⟨hhead, hinner⟩ := headerInner_some _ _ hh
  unfold pstep pstepT
  rw [if_neg (by
    intro hx
    rw [List.isEmpty_iff] at hx
    rw [hx] at hhead
    cases hhead)]
  rw [if_neg (by
    intro hx
    rw [hhead] at hx
    cases hx)]
  rw [hh]
  show (match splitOnChar '.' inner with
    | [sec, tab] => (⟨ensureTables st.result sec tab, some sec, some tab⟩ : PState)
    | _ => st) = st
  rcases hp : splitOnChar '.' inner with _ | ⟨a, _ | ⟨b, _ | ⟨c, rest⟩⟩⟩
  · rfl
  · rfl
  · exact absurd (by rw [hp]; rfl) hlen
  · rfl

theorem pstep_blank (st : PState) : pstep st [] = st := rfl

theorem tripleGet_assignKV (r : JObj) (s t k : Str) (v : JValue) :
    tripleGet (assignKV r s t k v) s t k = some v := by
  unfold assignKV tripleGet
  rw [aget_aset_self]
  show (match aget (aset (objOfJ (aget r s)) t
      (JValue.obj (aset (objOfJ (aget (objOfJ (aget r s)) t)) k v))) t with
    | some (.obj cfg) => aget cfg k
    | _ => none) = some v
  rw [aget_aset_self]
  show aget (aset (objOfJ (aget (objOfJ (aget r s)) t)) k v) k = some v
  rw [aget_aset_self]

theorem aset_append_entry (r : JObj) (sec : Str) (v w : JValue)
    (h : aget r sec = none) :
    aset (r ++ [(sec, v)]) sec w = r ++ [(sec, w)] := by
  have hg : aget (r ++ [(sec, v)]) sec = some v := by
    rw [aget_append_of_none _ _ _ h]
    simp [aget]
  rw [aset_of_isSome _ _ _ (by simp [hg]), replaceKey_append_of_none _ _ _ _ h]
  simp [replaceKey]

theorem ensureTables_eq (r : JObj) (sec tab : Str) (tsAcc : JObj)
    (hcases : (aget r sec = none ∧ tsAcc = []) ∨ aget r sec = some (.obj tsAcc))
    (htab : aget tsAcc tab = none) :
    ensureTables r sec tab = aset r sec (.obj (aset tsAcc tab (.obj []))) := by
  rcases hcases with ⟨hnone, rfl⟩ | hsome
  · have h1 : truthyOpt (aget r sec) = false := by rw [hnone]; rfl
    unfold ensureTables
    rw [h1, if_neg Bool.false_ne_true]
    unfold ensureTable2
    rw [aget_aset_self]
    rw [if_neg (show ¬(truthyOpt (aget (objOfJ (some (JValue.obj []))) tab) = true)
      from Bool.false_ne_true)]
    rw [aset_aset_same]
    rfl
  · have h1 : truthyOpt (aget r sec) = true := by rw [hsome]; rfl
    unfold ensureTables
    rw [h1, if_pos rfl]
    unfold ensureTable2
    rw [hsome]
    have h2 : truthyOpt (aget (objOfJ (some (JValue.obj tsAcc))) tab) = false := by
      show truthyOpt (aget tsAcc tab) = false
      rw [htab]
      rfl
    rw [h2, if_neg Bool.false_ne_true]
    rfl

theorem assignFold (cfg : JObj) (r ts c0 : JObj) (sec tab : Str)
    (hfresh : ∀ p ∈ cfg, aget c0 p.1 = none)
    (hnd : (cfg.map Prod.fst).Nodup) :
    cfg.foldl (fun racc p => assignKV racc sec tab p.1 p.2)
      (aset r sec (.obj (aset ts tab (.obj c0))))
    = aset r sec (.obj (aset ts tab (.obj (c0 ++ cfg)))) := by
  induction cfg generalizing c0 with
  | nil => simp
  | cons p cfg2 ih =>
    obtain ⟨k, v⟩ := p
    rw [List.foldl_cons]
    have hk : aget c0 k = none := hfresh (k, v) (List.mem_cons_self _ _)
    have hstep : assignKV (aset r sec (.obj (aset ts tab (.obj c0)))) sec tab k v
        = aset r sec (.obj (aset ts tab (.obj (c0 ++ [(k, v)])))) := by
      unfold assignKV
      rw [aget_aset_self]
      show aset (aset r sec (.obj (aset ts tab (.obj c0)))) sec
          (.obj (aset (aset ts tab (.obj c0)) tab
            (.obj (aset (objOfJ (aget (aset ts tab (.obj c0)) tab)) k v)))) = _
      rw [aget_aset_self]
      show aset (aset r sec (.obj (aset ts tab (.obj c0)))) sec
          (.obj (aset (aset ts tab (.obj c0)) tab (.obj (aset c0 k v)))) = _
      rw [aset_of_aget_none c0 k v hk, aset_aset_same, aset_aset_same]
    rw [hstep]
    simp only [List.map_cons, List.nodup_cons] at hnd
    have hfresh2 : ∀ q ∈ cfg2, aget (c0 ++ [(k, v)]) q.1 = none := by
      intro q hq
      rw [aget_append_of_none _ _ _ (hfresh q (List.mem_cons_of_mem _ hq))]
      have hqk : ¬(k = q.1) := by
        intro hx
        exact hnd.1 (hx ▸ List.mem_map_of_mem Prod.fst hq)
      simp [aget, hqk]
    rw [ih (c0 ++ [(k, v)]) hfresh2 hnd.2, List.append_assoc]
    rfl

theorem kvFold (cfg : JObj) (r : JObj) (sec tab : Str)
    (hcs : sec ≠ []) (hct : tab ≠ [])
    (hcfg : ∀ p ∈ cfg, (p.1 ≠ [] ∧ ∀ x ∈ p.1, wordChar x = true) ∧
      parseValue (valueOf p.2) = some p.2) :
    (cfg.map (fun p => kvLine p.1 p.2)).foldl pstep ⟨r, some sec, some tab⟩
      = ⟨cfg.foldl (fun racc p => assignKV racc sec tab p.1 p.2) r,
         some sec, some tab⟩ := by
  induction cfg generalizing r with
  | nil => rfl
  | cons p cfg2 ih =>
    obtain ⟨k, v⟩ := p
    rw [List.map_cons, List.foldl_cons, List.foldl_cons]
    obtain ⟨⟨hk1, hk2⟩, hv⟩ := hcfg (k, v) (List.mem_cons_self _ _)
    rw [pstep_kvLine r sec tab k v hk1 hk2 hv hcs hct]
    exact ih (assignKV r sec tab k v) (fun q hq => hcfg q (List.mem_cons_of_mem _ hq))

theorem tableBlock (r tsAcc cfg : JObj) (sec tab : Str) (cs0 ct0 : Option Str)
    (hs1 : sec ≠ []) (hsd : '.' ∉ sec) (hsb : ']' ∉ sec)
    (ht1 : tab ≠ []) (htd : '.' ∉ tab) (htb : ']' ∉ tab)
    (hcases : (aget r sec = none ∧ tsAcc = []) ∨ aget r sec = some (.obj tsAcc))
    (htab : aget tsAcc tab = none)
    (hnd : (cfg.map Prod.fst).Nodup)
    (hcfg : ∀ p ∈ cfg, (p.1 ≠ [] ∧ ∀ x ∈ p.1, wordChar x = true) ∧
      parseValue (valueOf p.2) = some p.2) :
    (tableLines sec tab (.obj cfg)).foldl pstep ⟨r, cs0, ct0⟩
      = ⟨aset r sec (.obj (aset tsAcc tab (.obj cfg))), some sec, some tab⟩ := by
  show (headerLine sec tab :: (cfg.map (fun p => kvLine p.1 p.2) ++ [[]])).foldl
      pstep ⟨r, cs0, ct0⟩ = _
  rw [List.foldl_cons, pstep_header r cs0 ct0 sec tab hsd hsb htd htb,
      ensureTables_eq r sec tab tsAcc hcases htab,
      List.foldl_append,
      kvFold cfg _ sec tab hs1 ht1 hcfg,
      assignFold cfg r tsAcc [] sec tab (by intro p hp; rfl) hnd,
      List.nil_append]
  rfl

theorem tablesFold (tables : List (Str × JValue)) (sec : Str) (r : JObj)
    (tsAcc : JObj) (cs0 ct0 : Option Str)
    (hrfresh : aget r sec = none)
    (hs1 : sec ≠ []) (hsd : '.' ∉ sec) (hsb : ']' ∉ sec)
    (hts : ∀ q ∈ tables, (q.1 ≠ [] ∧ '.' ∉ q.1 ∧ ']' ∉ q.1) ∧
      ∃ cfg, q.2 = JValue.obj cfg ∧ (cfg.map Prod.fst).Nodup ∧
        ∀ p ∈ cfg, (p.1 ≠ [] ∧ ∀ x ∈ p.1, wordChar x = true) ∧
          parseValue (valueOf p.2) = some p.2)
    (hfreshtab : ∀ q ∈ tables, aget tsAcc q.1 = none)
    (hndtab : (tables.map Prod.fst).Nodup) :
    ∃ cs1 ct1, (tables.flatMap (fun q => tableLines sec q.1 q.2)).foldl pstep
        ⟨r ++ [(sec, .obj tsAcc)], cs0, ct0⟩
      = ⟨r ++ [(sec, .obj (tsAcc ++ tables))], cs1, ct1⟩ := by
  induction tables generalizing tsAcc cs0 ct0 with
  | nil => exact ⟨cs0, ct0, by simp⟩
  | cons q rest ih =>
    obtain ⟨⟨ht1, htd, htb⟩, cfg, hq2, hndcfg, hcfg⟩ := hts q (List.mem_cons_self _ _)
    have hqfresh : aget tsAcc q.1 = none := hfreshtab q (List.mem_cons_self _ _)
    have hget : aget (r ++ [(sec, JValue.obj tsAcc)]) sec = some (.obj tsAcc) := by
      rw [aget_append_of_none _ _ _ hrfresh]
      simp [aget]
    rw [List.flatMap_cons, List.foldl_append, hq2,
        tableBlock (r ++ [(sec, JValue.obj tsAcc)]) tsAcc cfg sec q.1 cs0 ct0
          hs1 hsd hsb ht1 htd htb (Or.inr hget) hqfresh hndcfg hcfg,
        aset_of_aget_none tsAcc q.1 _ hqfresh,
        aset_append_entry r sec _ _ hrfresh]
    simp only [List.map_cons, List.nodup_cons] at hndtab
    have hfresh2 : ∀ q2 ∈ rest, aget (tsAcc ++ [(q.1, JValue.obj cfg)]) q2.1 = none := by
      intro q2 hq2m
      rw [aget_append_of_none _ _ _ (hfreshtab q2 (List.mem_cons_of_mem _ hq2m))]
      have : ¬(q.1 = q2.1) := by
        intro hx
        exact hndtab.1 (hx ▸ List.mem_map_of_mem Prod.fst hq2m)
      simp [aget, this]
    obtain ⟨cs1, ct1, hrec⟩ := ih (tsAcc ++ [(q.1, JValue.obj cfg)]) (some sec)
      (some q.1) (fun q2 h2 => hts q2 (List.mem_cons_of_mem _ h2)) hfresh2 hndtab.2
    refine ⟨cs1, ct1, ?_⟩
    rw [hrec, List.append_assoc]
    rw [show [(q.1, JValue.obj cfg)] ++ rest = (q.1, JValue.obj cfg) :: rest from rfl,
        ← hq2]

theorem sectionFold (sec : Str) (ts : List (Str × JValue)) (r : JObj)
    (cs0 ct0 : Option Str)
    (hrfresh : aget r sec = none)
    (hs1 : sec ≠ []) (hsd : '.' ∉ sec) (hsb : ']' ∉ sec)
    (htsne : ts ≠ [])
    (hndts : (ts.map Prod.fst).Nodup)
    (hts : ∀ q ∈ ts, (q.1 ≠ [] ∧ '.' ∉ q.1 ∧ ']' ∉ q.1) ∧
      ∃ cfg, q.2 = JValue.obj cfg ∧ (cfg.map Prod.fst).Nodup ∧
        ∀ p ∈ cfg, (p.1 ≠ [] ∧ ∀ x ∈ p.1, wordChar x = true) ∧
          parseValue (valueOf p.2) = some p.2) :
    ∃ cs1 ct1, (ts.flatMap (fun q => tableLines sec q.1 q.2)).foldl pstep
        ⟨r, cs0, ct0⟩
      = ⟨r ++ [(sec, .obj ts)], cs1, ct1⟩ := by
  obtain ⟨t1, ts2, rfl⟩ : ∃ a b, ts = a :: b := by
    cases ts with
    | nil => exact absurd rfl htsne
    | cons a b => exact ⟨a, b, rfl⟩
  obtain ⟨⟨ht1, htd, htb⟩, cfg, hq2, hndcfg, hcfg⟩ := hts t1 (List.mem_cons_self _ _)
  rw [List.flatMap_cons, List.foldl_append, hq2,
      tableBlock r [] cfg sec t1.1 cs0 ct0 hs1 hsd hsb ht1 htd htb
        (Or.inl ⟨hrfresh, rfl⟩) rfl hndcfg hcfg,
      show aset ([] : JObj) t1.1 (JValue.obj cfg) = [(t1.1, JValue.obj cfg)] from rfl,
      aset_of_aget_none r sec _ hrfresh]
  simp only [List.map_cons, List.nodup_cons] at hndts
  have hfresh2 : ∀ q2 ∈ ts2, aget [(t1.1, JValue.obj cfg)] q2.1 = none := by
    intro q2 hq2m
    have : ¬(t1.1 = q2.1) := by
      intro hx
      exact hndts.1 (hx ▸ List.mem_map_of_mem Prod.fst hq2m)
    simp [aget, this]
  obtain ⟨cs1, ct1, hrec⟩ := tablesFold ts2 sec r [(t1.1, JValue.obj cfg)]
    (some sec) (some t1.1) hrfresh hs1 hsd hsb
    (fun q2 h2 => hts q2 (List.mem_cons_of_mem _ h2)) hfresh2 hndts.2
  refine ⟨cs1, ct1, ?_⟩
  rw [hrec,
      show ([(t1.1, JValue.obj cfg)] : JObj) ++ ts2 = (t1.1, JValue.obj cfg) :: ts2
        from rfl,
      ← hq2]

theorem docFold (d : JObj) (r : JObj) (cs0 ct0 : Option Str)
    (hd : ∀ p ∈ d, (p.1 ≠ [] ∧ '.' ∉ p.1 ∧ ']' ∉ p.1) ∧
      ∃ ts, p.2 = JValue.obj ts ∧ ts ≠ [] ∧ (ts.map Prod.fst).Nodup ∧
        ∀ q ∈ ts, (q.1 ≠ [] ∧ '.' ∉ q.1 ∧ ']' ∉ q.1) ∧
          ∃ cfg, q.2 = JValue.obj cfg ∧ (cfg.map Prod.fst).Nodup ∧
            ∀ p2 ∈ cfg, (p2.1 ≠ [] ∧ ∀ x ∈ p2.1, wordChar x = true) ∧
              parseValue (valueOf p2.2) = some p2.2)
    (hfresh : ∀ p ∈ d, aget r p.1 = none)
    (hnd : (d.map Prod.fst).Nodup) :
    ∃ cs1 ct1, (tomlLines d).foldl pstep ⟨r, cs0, ct0⟩ = ⟨r ++ d, cs1, ct1⟩ := by
  induction d generalizing r cs0 ct0 with
  | nil => exact ⟨cs0, ct0, by simp [tomlLines]⟩
  | cons p d2 ih =>
    obtain ⟨⟨hp1, hpd, hpb⟩, ts, hp2, htsne, hndts, hts⟩ := hd p (List.mem_cons_self _ _)
    have hlines : tomlLines (p :: d2)
        = (ts.flatMap (fun q => tableLines p.1 q.1 q.2)) ++ tomlLines d2 := by
      show (p :: d2).flatMap _ = _
      rw [List.flatMap_cons, hp2]
      rfl
    rw [hlines, List.foldl_append]
    obtain ⟨csA, ctA, hsec⟩ := sectionFold p.1 ts r cs0 ct0
      (hfresh p (List.mem_cons_self _ _)) hp1 hpd hpb htsne hndts hts
    rw [hsec]
    simp only [List.map_cons, List.nodup_cons] at hnd
    have hfresh2 : ∀ p2 ∈ d2, aget (r ++ [(p.1, JValue.obj ts)]) p2.1 = none := by
      intro p2 hp2m
      rw [aget_append_of_none _ _ _ (hfresh p2 (List.mem_cons_of_mem _ hp2m))]
      have : ¬(p.1 = p2.1) := by
        intro hx
        exact hnd.1 (hx ▸ List.mem_map_of_mem Prod.fst hp2m)
      simp [aget, this]
    obtain ⟨cs1, ct1, hrec⟩ := ih (r ++ [(p.1, JValue.obj ts)]) csA ctA
      (fun p2 h2 => hd p2 (List.mem_cons_of_mem _ h2)) hfresh2 hnd.2
    refine ⟨cs1, ct1, ?_⟩
    rw [hrec, List.append_assoc,
        show ([(p.1, JValue.obj ts)] : JObj) ++ d2 = (p.1, JValue.obj ts) :: d2
          from rfl,
        ← hp2]

/-! ## The supported minimal-format subset -/

/-- A section or table name expressible in a two-level header: non-empty,
no dot (which would change the header depth), no closing bracket (which
would end the header early), no newline. -/
def NameOk (s : Str) : Prop := s ≠ [] ∧ '.' ∉ s ∧ ']' ∉ s ∧ '\n' ∉ s

/-- A key the `\w+` pattern can read back: a non-empty word-character run. -/
def KeyOk (k : Str) : Prop := k ≠ [] ∧ ∀ c ∈ k, wordChar c = true

/-- A value in the supported subset: a newline-free string, or a non-empty
array of comma-free newline-free strings (the two shapes the claim's
round-trip survives). -/
def ValOk : JValue → Prop
  | .str s => '\n' ∉ s
  | .arr l => l ≠ [] ∧ ∀ e ∈ l, ',' ∉ e ∧ '\n' ∉ e
  | .obj _ => False

/-- A table: duplicate-free keys, each entry in the subset. -/
def TableOk (cfg : JObj) : Prop :=
  (cfg.map Prod.fst).Nodup ∧ ∀ p ∈ cfg, KeyOk p.1 ∧ ValOk p.2

/-- A table value must be an object. -/
def ConfigOk : JValue → Prop
  | .obj cfg => TableOk cfg
  | _ => False

/-- A section value: a non-empty, duplicate-free collection of tables. -/
def TablesOk : JValue → Prop
  | .obj ts => ts ≠ [] ∧ (ts.map Prod.fst).Nodup ∧ ∀ q ∈ ts, NameOk q.1 ∧ ConfigOk q.2
  | _ => False

/-- The supported minimal-format subset of documents. -/
def SubsetDoc (d : JObj) : Prop :=
  (d.map Prod.fst).Nodup ∧ ∀ p ∈ d, NameOk p.1 ∧ TablesOk p.2

instance instDecNameOk (s : Str) : Decidable (NameOk s) :=
  inferInstanceAs (Decidable (_ ∧ _))

instance instDecKeyOk (k : Str) : Decidable (KeyOk k) :=
  inferInstanceAs (Decidable (_ ∧ _))

instance instDecValOk (v : JValue) : Decidable (ValOk v) :=
  match v with
  | .str _ => inferInstanceAs (Decidable (_ ∉ _))
  | .arr _ => inferInstanceAs (Decidable (_ ∧ _))
  | .obj _ => inferInstanceAs (Decidable False)

instance instDecTableOk (cfg : JObj) : Decidable (TableOk cfg) :=
  inferInstanceAs (Decidable (_ ∧ _))

instance instDecConfigOk (v : JValue) : Decidable (ConfigOk v) :=
  match v with
  | .obj _ => inferInstanceAs (Decidable (TableOk _))
  | .str _ => inferInstanceAs (Decidable False)
  | .arr _ => inferInstanceAs (Decidable False)

instance instDecTablesOk (v : JValue) : Decidable (TablesOk v) :=
  match v with
  | .obj _ => inferInstanceAs (Decidable (_ ∧ _))
  | .str _ => inferInstanceAs (Decidable False)
  | .arr _ => inferInstanceAs (Decidable False)

instance instDecSubsetDoc (d : JObj) : Decidable (SubsetDoc d) :=
  inferInstanceAs (Decidable (_ ∧ _))

theorem parseValue_of_ValOk (v : JValue) (h : ValOk v) :
    parseValue (valueOf v) = some v := by
  cases v with
  | str s => exact parseValue_quoteStr s
  | arr l => exact parseValue_arr l h.1 (fun e he => (h.2 e he).1)
  | obj o => exact absurd h (by simp [ValOk])

theorem mem_joinSep {c : Char} (sep : Str) (ls : List Str)
    (h : c ∈ joinSep sep ls) : c ∈ sep ∨ ∃ l ∈ ls, c ∈ l := by
  induction ls with
  | nil => simp [joinSep] at h
  | cons l rest ih =>
    cases rest with
    | nil =>
      right
      exact ⟨l, List.mem_cons_self _ _, h⟩
    | cons l2 rest2 =>
      rw [show joinSep sep (l :: l2 :: rest2) = l ++ sep ++ joinSep sep (l2 :: rest2)
        from rfl] at h
      rcases List.mem_append.mp h with h2 | h2
      · rcases List.mem_append.mp h2 with h3 | h3
        · exact Or.inr ⟨l, List.mem_cons_self _ _, h3⟩
        · exact Or.inl h3
      · rcases ih h2 with h3 | ⟨l3, hl3, hc3⟩
        · exact Or.inl h3
        · exact Or.inr ⟨l3, List.mem_cons_of_mem _ hl3, hc3⟩

theorem newline_not_mem_quoteStr (s : Str) (hs : '\n' ∉ s) :
    '\n' ∉ quoteStr s := by
  rw [quoteStr_concat]
  intro h
  rcases List.mem_append.mp h with h2 | h2
  · rcases List.mem_cons.mp h2 with h3 | h3
    · cases h3
    · exact hs h3
  · simp at h2

theorem newline_not_mem_headerLine (sec tab : Str)
    (hs : '\n' ∉ sec) (ht : '\n' ∉ tab) : '\n' ∉ headerLine sec tab := by
  intro h
  rw [headerLine_concat] at h
  rcases List.mem_cons.mp h with h2 | h2
  · cases h2
  · rcases List.mem_append.mp h2 with h3 | h3
    · rcases List.mem_append.mp h3 with h4 | h4
      · exact hs h4
      · rcases List.mem_cons.mp h4 with h5 | h5
        · cases h5
        · exact ht h5
    · simp at h3

theorem newline_not_mem_kvLine (k : Str) (v : JValue)
    (hk : ∀ c ∈ k, wordChar c = true) (hv : ValOk v) : '\n' ∉ kvLine k v := by
  rw [kvLine_eq_valueOf]
  intro h
  rcases List.mem_append.mp h with h2 | h2
  · exact wordChar_ne_newline _ (hk _ h2) rfl
  · rcases List.mem_cons.mp h2 with h3 | h3
    · cases h3
    rcases List.mem_cons.mp h3 with h4 | h4
    · cases h4
    rcases List.mem_cons.mp h4 with h5 | h5
    · cases h5
    cases v with
    | str s => exact newline_not_mem_quoteStr s hv h5
    | arr l =>
      rcases List.mem_cons.mp (show '\n' ∈ '[' :: (joinSep (sl ", ") (l.map quoteStr)
          ++ [']']) from h5) with h6 | h6
      · cases h6
      rcases List.mem_append.mp h6 with h7 | h7
      · rcases mem_joinSep _ _ h7 with h8 | ⟨l3, hl3, hc3⟩
        · simp [sl] at h8
        · obtain ⟨e, he, rfl⟩ := List.mem_map.mp hl3
          exact newline_not_mem_quoteStr e ((hv.2 e he).2) hc3
      · simp at h7
    | obj o => exact absurd hv (by simp [ValOk])

theorem tomlLines_newline_free (d : JObj) (hd : SubsetDoc d) :
    ∀ l ∈ tomlLines d, '\n' ∉ l := by
  intro l hl
  obtain ⟨p, hp, hl2⟩ := List.mem_flatMap.mp hl
  obtain ⟨hname, htabs⟩ := hd.2 p hp
  rcases hv : p.2 with s | a | ts
  · rw [hv] at htabs; exact absurd htabs (by simp [TablesOk])
  · rw [hv] at htabs; exact absurd htabs (by simp [TablesOk])
  rw [hv] at hl2 htabs
  rw [show (match entriesOfJ (JValue.obj ts) with
      | none => []
      | some ts2 => ts2.flatMap fun q => tableLines p.1 q.1 q.2)
    = ts.flatMap (fun q => tableLines p.1 q.1 q.2) from rfl] at hl2
  obtain ⟨q, hq, hl3⟩ := List.mem_flatMap.mp hl2
  obtain ⟨hqname, hqcfg⟩ := htabs.2.2 q hq
  rcases hqv : q.2 with s | a | cfg
  · rw [hqv] at hqcfg; exact absurd hqcfg (by simp [ConfigOk])
  · rw [hqv] at hqcfg; exact absurd hqcfg (by simp [ConfigOk])
  rw [hqv] at hl3 hqcfg
  rw [show tableLines p.1 q.1 (JValue.obj cfg)
    = headerLine p.1 q.1 :: (cfg.map (fun r2 => kvLine r2.1 r2.2) ++ [[]])
    from rfl] at hl3
  rcases List.mem_cons.mp hl3 with h4 | h4
  · rw [h4]
    exact newline_not_mem_headerLine _ _ hname.2.2.2 hqname.2.2.2
  rcases List.mem_append.mp h4 with h5 | h5
  · obtain ⟨p2, hp2, rfl⟩ := List.mem_map.mp h5
    obtain ⟨hkey, hval⟩ := hqcfg.2 p2 hp2
    exact newline_not_mem_kvLine p2.1 p2.2 hkey.2 hval
  · rw [List.mem_singleton.mp h5]
    simp

theorem tomlLines_ne_nil (d : JObj) (hd : SubsetDoc d) (hne : d ≠ []) :
    tomlLines d ≠ [] := by
  obtain ⟨p, d2, rfl⟩ : ∃ a b, d = a :: b := by
    cases d with
    | nil => exact absurd rfl hne
    | cons a b => exact ⟨a, b, rfl⟩
  obtain ⟨hname, htabs⟩ := hd.2 p (List.mem_cons_self _ _)
  rcases hv : p.2 with s | a | ts
  · rw [hv] at htabs; exact absurd htabs (by simp [TablesOk])
  · rw [hv] at htabs; exact absurd htabs (by simp [TablesOk])
  rw [hv] at htabs
  obtain ⟨t1, ts2, hts⟩ : ∃ a b, ts = a :: b := by
    rcases hts2 : ts with _ | ⟨a, b⟩
    · rw [hts2] at htabs; exact absurd htabs.1 (by simp)
    · exact ⟨a, b, rfl⟩
  intro hx
  have : tomlLines (p :: d2)
      = (ts.flatMap fun q => tableLines p.1 q.1 q.2) ++ tomlLines d2 := by
    show (p :: d2).flatMap _ = _
    rw [List.flatMap_cons, hv]
    rfl
  rw [this, hts] at hx
  obtain ⟨hqname, hqcfg⟩ := htabs.2.2 t1 (hts ▸ List.mem_cons_self _ _)
  rcases hqv : t1.2 with s | a | cfg
  · rw [hqv] at hqcfg; exact absurd hqcfg (by simp [ConfigOk])
  · rw [hqv] at hqcfg; exact absurd hqcfg (by simp [ConfigOk])
  rw [List.flatMap_cons, hqv] at hx
  rw [show tableLines p.1 t1.1 (JValue.obj cfg)
    = headerLine p.1 t1.1 :: (cfg.map (fun r2 => kvLine r2.1 r2.2) ++ [[]])
    from rfl] at hx
  simp at hx

/-- The claim of C2 fails as stated: an empty array — an array of string
values — does not round trip, because the stringifier prints `k = []` and the
parser reads that back as a one-element array containing the empty string. -/
theorem toml_roundtrip_counterexample :
    parseSimpleToml (stringifySimpleToml
        [(sl "s", JValue.obj [(sl "t", JValue.obj [(sl "k", JValue.arr [])])])])
      = [(sl "s", JValue.obj [(sl "t", JValue.obj [(sl "k", JValue.arr [[]])])])] ∧
    JValue.arr ([] : List Str) ≠ JValue.arr [[]] := by
  constructor
  · rfl
  · decide

/-- C2 (amended): for every document in the supported minimal-format subset —
two-level table headers with header-safe names, word-character keys,
newline-free string values and **non-empty** arrays of comma-free
newline-free string values — parsing the stringified document returns it
exactly. -/
theorem parse_stringify_roundtrip (d : JObj) (hd : SubsetDoc d) :
    parseSimpleToml (stringifySimpleToml d) = d := by
  rcases hdne : d with _ | ⟨p, d2⟩
  · rfl
  rw [← hdne]
  have hne : d ≠ [] := by rw [hdne]; simp
  unfold parseSimpleToml stringifySimpleToml
  rw [splitOnChar_joinSep '\n' (tomlLines d) (tomlLines_ne_nil d hd hne)
      (tomlLines_newline_free d hd)]
  obtain ⟨cs1, ct1, hfold⟩ := docFold d [] none none
    (by
      intro p2 hp2
      obtain ⟨hname, htabs⟩ := hd.2 p2 hp2
      refine ⟨⟨hname.1, hname.2.1, hname.2.2.1⟩, ?_⟩
      rcases hv : p2.2 with s | a | ts
      · rw [hv] at htabs; exact absurd htabs (by simp [TablesOk])
      · rw [hv] at htabs; exact absurd htabs (by simp [TablesOk])
      rw [hv] at htabs
      refine ⟨ts, rfl, htabs.1, htabs.2.1, ?_⟩
      intro q hq
      obtain ⟨hqname, hqcfg⟩ := htabs.2.2 q hq
      refine ⟨⟨hqname.1, hqname.2.1, hqname.2.2.1⟩, ?_⟩
      rcases hqv : q.2 with s | a | cfg
      · rw [hqv] at hqcfg; exact absurd hqcfg (by simp [ConfigOk])
      · rw [hqv] at hqcfg; exact absurd hqcfg (by simp [ConfigOk])
      rw [hqv] at hqcfg
      refine ⟨cfg, rfl, hqcfg.1, ?_⟩
      intro p3 hp3
      obtain ⟨hkey, hval⟩ := hqcfg.2 p3 hp3
      exact ⟨⟨hkey.1, hkey.2⟩, parseValue_of_ValOk p3.2 hval⟩)
    (fun p2 hp2 => rfl) hd.1
  rw [hfold]
  simp

/-- Concrete instance of the amended C2 round trip, exercising both string
and array values. -/
theorem parse_stringify_roundtrip_witness :
    SubsetDoc [(sl "mcp_servers", JValue.obj
      [(sl "wcag", JValue.obj
        [(sl "command", JValue.str (sl "node")),
         (sl "args", JValue.arr [sl "index.js", sl "--quiet"])])])] ∧
    parseSimpleToml (stringifySimpleToml [(sl "mcp_servers", JValue.obj
      [(sl "wcag", JValue.obj
        [(sl "command", JValue.str (sl "node")),
         (sl "args", JValue.arr [sl "index.js", sl "--quiet"])])])])
      = [(sl "mcp_servers", JValue.obj
      [(sl "wcag", JValue.obj
        [(sl "command", JValue.str (sl "node")),
         (sl "args", JValue.arr [sl "index.js", sl "--quiet"])])])] :=
  ⟨by decide, parse_stringify_roundtrip _ (by decide)⟩

/-- C9: a bracketed header line whose inner text does not split into exactly
two dot-separated components neither updates the document nor closes or
resets the open table: a `key = value` line following it (after a valid
two-level header) is assigned to the most recently opened table. -/
theorem unrecognized_header_keeps_table (L : List Str) (sec tab : Str)
    (bad kvl key value : Str) (pv : JValue) (inner : Str)
    (hL : ∀ l ∈ L, '\n' ∉ l)
    (hs1 : sec ≠ []) (hsd : '.' ∉ sec) (hsb : ']' ∉ sec) (hsn : '\n' ∉ sec)
    (ht1 : tab ≠ []) (htd : '.' ∉ tab) (htb : ']' ∉ tab) (htn : '\n' ∉ tab)
    (hbadn : '\n' ∉ bad)
    (hbad : headerInner (trimStr bad) = some inner)
    (hbad2 : (splitOnChar '.' inner).length ≠ 2)
    (hkvn : '\n' ∉ kvl)
    (hkv : kvSplit (trimStr kvl) = some (key, value))
    (hpv : parseValue value = some pv) :
    tripleGet (parseSimpleToml (joinSep ['\n']
        (L ++ [headerLine sec tab, bad, kvl]))) sec tab key = some pv := by
  unfold parseSimpleToml
  rw [splitOnChar_joinSep '\n' _ (by simp)
      (by
        intro l hl
        rcases List.mem_append.mp hl with h | h
        · exact hL l h
        · rcases List.mem_cons.mp h with rfl | h
          · exact newline_not_mem_headerLine sec tab hsn htn
          rcases List.mem_cons.mp h with rfl | h
          · exact hbadn
          rw [List.mem_singleton.mp h]
          exact hkvn)]
  rw [List.foldl_append]
  rw [show List.foldl pstep (L.foldl pstep ⟨[], none, none⟩)
      [headerLine sec tab, bad, kvl]
    = pstep (pstep (pstep (L.foldl pstep ⟨[], none, none⟩)
        (headerLine sec tab)) bad) kvl from rfl]
  rw [pstep_header (L.foldl pstep ⟨[], none, none⟩).result
      (L.foldl pstep ⟨[], none, none⟩).currentSection
      (L.foldl pstep ⟨[], none, none⟩).currentTable sec tab hsd hsb htd htb]
  rw [pstep_badheader _ bad inner hbad hbad2]
  rw [pstep_kv _ sec tab kvl key value pv hkv hpv hs1 ht1]
  exact tripleGet_assignKV _ sec tab key pv

/-- Concrete instance of C9: after `[a.b]`, the unrecognized header
`[x.y.z]` is skipped and `k = "v"` still lands in table `a.b`. -/
theorem unrecognized_header_keeps_table_witness :
    tripleGet (parseSimpleToml (joinSep ['\n']
        ([] ++ [headerLine (sl "a") (sl "b"), sl "[x.y.z]", sl "k = \"v\""])))
      (sl "a") (sl "b") (sl "k") = some (JValue.str (sl "v")) :=
  unrecognized_header_keeps_table [] (sl "a") (sl "b") (sl "[x.y.z]")
    (sl "k = \"v\"") (sl "k") ('"' :: 'v' :: '"' :: []) (JValue.str (sl "v"))
    (sl "x.y.z")
    (by intro l hl; cases hl) (by decide) (by decide) (by decide) (by decide)
    (by decide) (by decide) (by decide) (by decide) (by decide)
    (by decide) (by decide) (by decide) (by decide) (by decide)

theorem take_heapSet_of_le {α : Type} (l : List α) (i : Nat) (a : α) (n : Nat)
    (h : n ≤ i) : (l.set i a).take n = l.take n := by
  induction l generalizing i n with
  | nil => simp
  | cons x rest ih =>
    cases i with
    | zero =>
      have : n = 0 := Nat.le_zero.mp h
      simp [this]
    | succ i2 =>
      cases n with
      | zero => simp
      | succ n2 =>
        simp only [List.set, List.take]
        rw [ih i2 n2 (Nat.le_of_succ_le_succ h)]

theorem take_append_self {α : Type} (l l2 : List α) (n : Nat) (h : n ≤ l.length) :
    (l ++ l2).take n = l.take n := by
  induction l generalizing n with
  | nil =>
    have : n = 0 := Nat.le_zero.mp (by simpa using h)
    simp [this]
  | cons x rest ih =>
    cases n with
    | zero => simp
    | succ n2 =>
      simp only [List.cons_append, List.take]
      show x :: (rest ++ l2).take n2 = x :: rest.take n2
      rw [ih n2 (Nat.le_of_succ_le_succ (by simpa using h))]

/-- The frozen-prefix relation: every object that existed in `h` is unchanged
in `h2`. -/
def HeapFrozen (h h2 : Heap) : Prop := h2.take h.length = h

theorem heapFrozen_length {h h2 : Heap} (hf : HeapFrozen h h2) :
    h.length ≤ h2.length := by
  have := congrArg List.length hf
  simp only [List.length_take] at this
  omega

theorem heapFrozen_refl (h : Heap) : HeapFrozen h h := by
  simp [HeapFrozen]

theorem heapFrozen_alloc {h h2 : Heap} (o : HObj) (hf : HeapFrozen h h2) :
    HeapFrozen h (h2 ++ [o]) := by
  unfold HeapFrozen at hf ⊢
  rw [take_append_self h2 [o] h.length (heapFrozen_length hf)]
  exact hf

theorem heapFrozen_set {h h2 : Heap} (i : ObjId) (o : HObj)
    (hi : h.length ≤ i) (hf : HeapFrozen h h2) :
    HeapFrozen h (heapSet h2 i o) := by
  unfold HeapFrozen at hf ⊢
  unfold heapSet
  rw [take_heapSet_of_le h2 i o h.length hi]
  exact hf

theorem heapFrozen_mergeLoop (h : Heap) (secId : ObjId) (S : List Server)
    (hAcc : Heap) (hi : h.length ≤ secId) (hf : HeapFrozen h hAcc) :
    HeapFrozen h (S.foldl (mergeLoopH secId) hAcc) := by
  induction S generalizing hAcc with
  | nil => exact hf
  | cons s rest ih =>
    rw [List.foldl_cons]
    exact ih _ (heapFrozen_set _ _ hi (heapFrozen_alloc _ hf))

theorem heapFrozen_removeLoop (h : Heap) (upId : ObjId) (ns : List Str)
    (p : Heap × Nat) (hi : h.length ≤ upId) (hf : HeapFrozen h p.1) :
    HeapFrozen h ((ns.foldl (removeLoopH upId) p).1) := by
  induction ns generalizing p with
  | nil => exact hf
  | cons n rest ih =>
    rw [List.foldl_cons]
    apply ih
    unfold removeLoopH
    by_cases hc : (aget (heapGet p.1 upId) n).isSome
    · rw [if_pos hc]
      exact heapFrozen_set _ _ hi hf
    · rw [if_neg hc]
      exact hf

/-- C10: neither operation mutates any pre-existing object — in particular
the input document and its section object are structurally identical before
and after either call; the results live entirely in freshly allocated
objects. -/
theorem configStore_no_input_mutation (h : Heap) (docId : ObjId)
    (S : List Server) (names : List Str) (k : Str) :
    HeapFrozen h (mergeServersH h docId S k).1 ∧
    HeapFrozen h (removeServersH h docId names k).1 := by
  constructor
  · unfold mergeServersH
    apply heapFrozen_mergeLoop h h.length S _ (Nat.le_refl _)
    exact heapFrozen_alloc _ (heapFrozen_alloc _ (heapFrozen_refl h))
  · unfold removeServersH
    simp only [halloc]
    split
    · exact heapFrozen_refl h
    · rename_i es hsec
      have hf1 : HeapFrozen h ((names.foldl (removeLoopH h.length) (h ++ [es], 0)).1) :=
        heapFrozen_removeLoop h h.length names (h ++ [es], 0) (Nat.le_refl _)
          (heapFrozen_alloc _ (heapFrozen_refl h))
      by_cases h0 : (names.foldl (removeLoopH h.length) (h ++ [es], 0)).2 = 0
      · rw [if_pos h0]
        exact hf1
      · rw [if_neg h0]
        apply heapFrozen_set _ _ (heapFrozen_length hf1)
        exact heapFrozen_alloc _ hf1

end A11y
